import Mathlib

/-!
Verification of the worktree-tool core components: the allocation registry,
the slot/resource allocator, and the environment-file patcher.

Strings from the TypeScript source are modelled as `List Char`; JavaScript
objects (string-keyed records) are modelled as association lists preserving
insertion order, matching JS object key-ordering semantics for string keys
that are not array indices.  Numbers are modelled as `Nat` (ports, slots,
redis indices are non-negative integers throughout the source) and JSON
numbers as `Int`.  Regex-based rewrites are modelled by equivalent
first-match replacement functions; replacement text is inserted literally.
-/

namespace Wt

/-- Double quote character, written via its code point. -/
def dquote : Char := Char.ofNat 34

/-- Single quote character, written via its code point. -/
def squote : Char := Char.ofNat 39

/-- Decimal digit test, as in the regexes `\d`. -/
def isDigitCh (c : Char) : Bool := decide ('0' ≤ c) && decide (c ≤ '9')

/-- Quote character test used by the env patcher (`["']`). -/
def isQuoteCh (c : Char) : Bool := c == dquote || c == squote

/-- Decimal digit character for a value below ten. -/
def digitChar (n : Nat) : Char := Char.ofNat (48 + n)

/-- Fuel-driven decimal rendering of a natural number (JS `String(n)` for
integers); the fuel argument only serves structural termination. -/
def natToCharsAux : Nat → Nat → List Char
  | 0, _ => []
  | fuel + 1, n =>
    if n < 10 then [digitChar n]
    else natToCharsAux fuel (n / 10) ++ [digitChar (n % 10)]

/-- Decimal string of a natural number, as produced by JS `String(slot)`. -/
def natToChars (n : Nat) : List Char := natToCharsAux (n + 1) n

theorem natToCharsAux_irrel : ∀ f1 : Nat, ∀ f2 n : Nat, n < f1 → n < f2 →
    natToCharsAux f1 n = natToCharsAux f2 n := by
  intro f1
  induction f1 with
  | zero => intro f2 n h1 _; omega
  | succ f ih =>
    intro f2 n h1 h2
    cases f2 with
    | zero => omega
    | succ g =>
      simp only [natToCharsAux]
      by_cases h : n < 10
      · simp [h]
      · simp only [h, if_false]
        have hd : n / 10 < n := Nat.div_lt_self (by omega) (by omega)
        rw [ih g (n / 10) (by omega) (by omega)]

theorem natToChars_eq (n : Nat) : natToChars n =
    if n < 10 then [digitChar n] else natToChars (n / 10) ++ [digitChar (n % 10)] := by
  unfold natToChars
  conv_lhs => rw [natToCharsAux]
  by_cases h : n < 10
  · simp [h]
  · simp only [h, if_false]
    have hd : n / 10 < n := Nat.div_lt_self (by omega) (by omega)
    rw [natToCharsAux_irrel n (n / 10 + 1) (n / 10) (by omega) (by omega)]

theorem digitChar_isDigit (m : Nat) (h : m < 10) : isDigitCh (digitChar m) = true := by
  interval_cases m <;> decide

theorem natToChars_ne_nil (n : Nat) : natToChars n ≠ [] := by
  rw [natToChars_eq]
  by_cases h : n < 10 <;> simp [h]

theorem natToChars_all_digit (n : Nat) : ∀ c ∈ natToChars n, isDigitCh c = true := by
  induction n using Nat.strong_induction_on with
  | _ n ih =>
    rw [natToChars_eq]
    by_cases h : n < 10
    · simp only [h, if_true, List.mem_singleton]
      intro c hc; subst hc; exact digitChar_isDigit n h
    · simp only [h, if_false]
      intro c hc
      rcases List.mem_append.mp hc with h1 | h2
      · exact ih (n / 10) (Nat.div_lt_self (by omega) (by omega)) c h1
      · rcases List.mem_singleton.mp h2 with rfl
        exact digitChar_isDigit _ (Nat.mod_lt _ (by omega))

/-- Numeric value of a decimal digit string (used to invert `natToChars`). -/
def charsVal (l : List Char) : Nat := l.foldl (fun acc c => acc * 10 + (c.toNat - 48)) 0

theorem charsVal_append_digit (l : List Char) (c : Char) :
    charsVal (l ++ [c]) = charsVal l * 10 + (c.toNat - 48) := by
  unfold charsVal
  rw [List.foldl_append]
  rfl

theorem charsVal_natToChars (n : Nat) : charsVal (natToChars n) = n := by
  induction n using Nat.strong_induction_on with
  | _ n ih =>
    rw [natToChars_eq]
    by_cases h : n < 10
    · simp only [h, if_true]
      interval_cases n <;> decide
    · simp only [h, if_false]
      rw [charsVal_append_digit, ih (n / 10) (Nat.div_lt_self (by omega) (by omega))]
      have hm : n % 10 < 10 := Nat.mod_lt _ (by omega)
      have : (digitChar (n % 10)).toNat - 48 = n % 10 := by
        have h10 := hm
        interval_cases h : (n % 10) <;> simp [digitChar, Char.toNat, h] <;> rfl
      rw [this]
      omega

theorem natToChars_injective {a b : Nat} (h : natToChars a = natToChars b) : a = b := by
  have := congrArg charsVal h
  rwa [charsVal_natToChars, charsVal_natToChars] at this

/-! ### JS object model: association lists keyed by strings -/

/-- Property lookup on a JS object (`obj[k]`), first match wins. -/
def jsGet {α : Type} : List (List Char × α) → List Char → Option α
  | [], _ => none
  | p :: rest, k => if p.1 = k then some p.2 else jsGet rest k

/-- The JS `k in obj` membership test. -/
def jsHasKey {α : Type} (l : List (List Char × α)) (k : List Char) : Bool :=
  (jsGet l k).isSome

/-- Replace the value stored under an existing key, keeping its position. -/
def replaceKey {α : Type} : List (List Char × α) → List Char → α → List (List Char × α)
  | [], _, _ => []
  | p :: rest, k, v => if p.1 = k then (k, v) :: replaceKey rest k v else p :: replaceKey rest k v

/-- JS object spread `{...obj, [k]: v}`: existing keys keep their position,
new keys are appended at the end. -/
def setKey {α : Type} (l : List (List Char × α)) (k : List Char) (v : α) :
    List (List Char × α) :=
  if jsHasKey l k then replaceKey l k v else l ++ [(k, v)]

/-- `Object.entries(...).filter(([key]) => key !== k)` composed with
`Object.fromEntries`. -/
def removeKey {α : Type} : List (List Char × α) → List Char → List (List Char × α)
  | [], _ => []
  | p :: rest, k => if p.1 = k then removeKey rest k else p :: removeKey rest k

theorem jsGet_replaceKey_ne {α : Type} (l : List (List Char × α)) (k k2 : List Char) (v : α)
    (h : k2 ≠ k) : jsGet (replaceKey l k v) k2 = jsGet l k2 := by
  induction l with
  | nil => rfl
  | cons p rest ih =>
    have hk2 : ¬ (k = k2) := Ne.symm h
    simp only [replaceKey]
    by_cases hp : p.1 = k
    · have hp2 : ¬ (p.1 = k2) := by rw [hp]; exact hk2
      rw [if_pos hp]
      simp only [jsGet, if_neg hk2, if_neg hp2, ih]
    · rw [if_neg hp]
      simp only [jsGet, ih]

theorem jsGet_replaceKey_self {α : Type} (l : List (List Char × α)) (k : List Char) (v : α)
    (h : (jsGet l k).isSome) : jsGet (replaceKey l k v) k = some v := by
  induction l with
  | nil => simp [jsGet] at h
  | cons p rest ih =>
    simp only [replaceKey]
    by_cases hp : p.1 = k
    · rw [if_pos hp]
      simp [jsGet]
    · rw [if_neg hp]
      simp only [jsGet, if_neg hp] at h ⊢
      exact ih h

theorem jsGet_append_single_ne {α : Type} (l : List (List Char × α)) (k k2 : List Char) (v : α)
    (h : k2 ≠ k) : jsGet (l ++ [(k, v)]) k2 = jsGet l k2 := by
  induction l with
  | nil => simp [jsGet, Ne.symm h]
  | cons p rest ih =>
    simp only [List.cons_append, jsGet, List.append_eq] at ih ⊢
    rw [ih]

theorem jsGet_setKey_ne {α : Type} (l : List (List Char × α)) (k k2 : List Char) (v : α)
    (h : k2 ≠ k) : jsGet (setKey l k v) k2 = jsGet l k2 := by
  unfold setKey
  by_cases hk : jsHasKey l k
  · rw [if_pos hk, jsGet_replaceKey_ne _ _ _ _ h]
  · rw [if_neg hk, jsGet_append_single_ne _ _ _ _ h]

theorem jsGet_setKey_self {α : Type} (l : List (List Char × α)) (k : List Char) (v : α) :
    jsGet (setKey l k v) k = some v := by
  unfold setKey
  by_cases hk : jsHasKey l k
  · rw [if_pos hk]
    exact jsGet_replaceKey_self _ _ _ hk
  · rw [if_neg hk]
    unfold jsHasKey at hk
    induction l with
    | nil => simp [jsGet]
    | cons p rest ih =>
      simp only [jsGet] at hk ⊢
      by_cases hp : p.1 = k
      · simp [hp] at hk
      · simp only [List.cons_append, jsGet, if_neg hp]
        exact ih (by simpa [hp] using hk)

theorem jsGet_removeKey_ne {α : Type} (l : List (List Char × α)) (k k2 : List Char)
    (h : k2 ≠ k) : jsGet (removeKey l k) k2 = jsGet l k2 := by
  induction l with
  | nil => rfl
  | cons p rest ih =>
    simp only [removeKey, jsGet]
    by_cases hp : p.1 = k
    · rw [if_pos hp, ih, if_neg (by rw [hp]; exact fun hh => h hh.symm)]
    · simp only [hp, if_false, jsGet, ih]

theorem removeKey_of_absent {α : Type} (l : List (List Char × α)) (k : List Char)
    (h : jsGet l k = none) : removeKey l k = l := by
  induction l with
  | nil => rfl
  | cons p rest ih =>
    simp only [jsGet] at h
    by_cases hp : p.1 = k
    · simp [hp] at h
    · simp only [removeKey, hp, if_false]
      rw [ih (by simpa [hp] using h)]

theorem removeKey_append_single {α : Type} (l : List (List Char × α)) (k : List Char) (v : α) :
    removeKey (l ++ [(k, v)]) k = removeKey l k := by
  induction l with
  | nil => simp [removeKey]
  | cons p rest ih =>
    simp only [List.cons_append, removeKey]
    by_cases hp : p.1 = k
    · simp [hp, ih]
    · simp [hp, ih]

/-! ### Data model: allocations and the registry -/

/-- Persisted record of the resources bound to one slot. -/
structure Allocation where
  worktreePath : List Char
  branchName : List Char
  dbName : List Char
  redisDb : Nat
  ports : List (List Char × Nat)
  createdAt : List Char
deriving DecidableEq, Repr

/-- The `.worktree-registry.json` document: a version literal and a map from
decimal slot keys to allocations. -/
structure Registry where
  version : Nat
  allocations : List (List Char × Allocation)
deriving DecidableEq, Repr

/-- `createEmptyRegistry` from the registry store. -/
def createEmptyRegistry : Registry := { version := 1, allocations := [] }

/-- `addAllocation`: spread-copy the registry with `String(slot)` bound to the
allocation. -/
def addAllocation (registry : Registry) (slot : Nat) (allocation : Allocation) : Registry :=
  { registry with allocations := setKey registry.allocations (natToChars slot) allocation }

/-- `removeAllocation`: filter out the entry whose key is `String(slot)`. -/
def removeAllocation (registry : Registry) (slot : Nat) : Registry :=
  { registry with allocations := removeKey registry.allocations (natToChars slot) }

/-! ### Slot allocator -/

/-- Static service configuration: a name and a default port. -/
structure ServiceConfig where
  name : List Char
  defaultPort : Nat
deriving DecidableEq, Repr

/-- `calculatePorts`: one entry per service, `slot * stride + defaultPort`. -/
def calculatePorts (slot : Nat) (services : List ServiceConfig) (stride : Nat) :
    List (List Char × Nat) :=
  services.map (fun s => (s.name, slot * stride + s.defaultPort))

/-- `calculateDbName`: the fixed format `baseName_wtN`. -/
def calculateDbName (slot : Nat) (baseName : List Char) : List Char :=
  baseName ++ ('_' :: 'w' :: 't' :: natToChars slot)

/-- Loop body of `findAvailableSlot`; the fuel argument only serves structural
termination and is chosen large enough never to run out before `slot > maxSlots`. -/
def findFromAux (registry : Registry) (maxSlots : Nat) : Nat → Nat → Option Nat
  | 0, _ => none
  | fuel + 1, slot =>
    if slot > maxSlots then none
    else if jsHasKey registry.allocations (natToChars slot) then
      findFromAux registry maxSlots fuel (slot + 1)
    else some slot

/-- `findAvailableSlot`: scan slots `1..maxSlots` in increasing order and
return the first whose decimal key is absent from the allocation map. -/
def findAvailableSlot (registry : Registry) (maxSlots : Nat) : Option Nat :=
  findFromAux registry maxSlots (maxSlots + 1) 1

theorem findFromAux_some (registry : Registry) (maxSlots : Nat) :
    ∀ fuel slot s : Nat, maxSlots + 1 ≤ slot + fuel →
    findFromAux registry maxSlots fuel slot = some s →
    slot ≤ s ∧ s ≤ maxSlots ∧ jsHasKey registry.allocations (natToChars s) = false ∧
      ∀ t, slot ≤ t → t < s → jsHasKey registry.allocations (natToChars t) = true := by
  intro fuel
  induction fuel with
  | zero => intro slot s _ h; simp [findFromAux] at h
  | succ f ih =>
    intro slot s hle h
    simp only [findFromAux] at h
    by_cases hgt : slot > maxSlots
    · simp [hgt] at h
    · rw [if_neg hgt] at h
      by_cases hocc : jsHasKey registry.allocations (natToChars slot) = true
      · rw [if_pos hocc] at h
        obtain ⟨ha, hb, hc, hd⟩ := ih (slot + 1) s (by omega) h
        refine ⟨by omega, hb, hc, ?_⟩
        intro t h1 h2
        rcases Nat.eq_or_lt_of_le h1 with rfl | hlt
        · exact hocc
        · exact hd t (by omega) h2
      · rw [if_neg hocc] at h
        obtain rfl : slot = s := by simpa using h
        exact ⟨le_refl _, by omega, by simpa using hocc, fun t h1 h2 => by omega⟩

theorem findFromAux_none (registry : Registry) (maxSlots : Nat) :
    ∀ fuel slot : Nat, maxSlots + 1 ≤ slot + fuel →
    (findFromAux registry maxSlots fuel slot = none ↔
      ∀ t, slot ≤ t → t ≤ maxSlots → jsHasKey registry.allocations (natToChars t) = true) := by
  intro fuel
  induction fuel with
  | zero =>
    intro slot hle
    simp only [findFromAux, true_iff]
    intro t h1 h2; omega
  | succ f ih =>
    intro slot hle
    simp only [findFromAux]
    by_cases hgt : slot > maxSlots
    · simp only [hgt, if_true, true_iff]
      intro t h1 h2; omega
    · rw [if_neg hgt]
      by_cases hocc : jsHasKey registry.allocations (natToChars slot) = true
      · rw [if_pos hocc, ih (slot + 1) (by omega)]
        constructor
        · intro hall t h1 h2
          rcases Nat.eq_or_lt_of_le h1 with rfl | hlt
          · exact hocc
          · exact hall t (by omega) h2
        · intro hall t h1 h2
          exact hall t (by omega) h2
      · rw [if_neg hocc]
        simp only [reduceCtorEq, false_iff]
        intro hall
        exact hocc (hall slot (le_refl _) (by omega))

/-- Minimal sample allocation, mirroring the test helper `makeAllocation`. -/
def sampleAllocation (slot : Nat) : Allocation :=
  { worktreePath := "/tmp/wt".toList ++ natToChars slot
    branchName := "feat/test-".toList ++ natToChars slot
    dbName := "cryptoacc_wt".toList ++ natToChars slot
    redisDb := slot
    ports := [("app".toList, 3000 + slot * 100)]
    createdAt := "2024-01-01T00:00:00Z".toList }

/-- Registry with allocations at slots 1, 2 and 4. -/
def registry124 : Registry :=
  { version := 1
    allocations := [(natToChars 1, sampleAllocation 1), (natToChars 2, sampleAllocation 2),
      (natToChars 4, sampleAllocation 4)] }

/-- C1: `findAvailableSlot` returns the smallest slot in `[1, maxSlots]` whose
decimal key is absent from the allocation map, returns none exactly when every
slot in `[1, maxSlots]` is occupied, and on the registry with allocations at
slots 1, 2, 4 and `maxSlots = 15` it returns 3. -/
theorem findAvailableSlot_correct (registry : Registry) (maxSlots : Nat)
    (hm : 1 ≤ maxSlots) :
    (∀ s, findAvailableSlot registry maxSlots = some s →
      1 ≤ s ∧ s ≤ maxSlots ∧ jsHasKey registry.allocations (natToChars s) = false ∧
        ∀ t, 1 ≤ t → t < s → jsHasKey registry.allocations (natToChars t) = true) ∧
    (findAvailableSlot registry maxSlots = none ↔
      ∀ t, 1 ≤ t → t ≤ maxSlots → jsHasKey registry.allocations (natToChars t) = true) ∧
    findAvailableSlot registry124 15 = some 3 := by
  refine ⟨?_, ?_, by decide⟩
  · intro s h
    exact findFromAux_some registry maxSlots (maxSlots + 1) 1 s (by omega) h
  · exact findFromAux_none registry maxSlots (maxSlots + 1) 1 (by omega)

/-- C1 witness: the theorem instantiated at the sample registry. -/
theorem findAvailableSlot_correct_witness :
    (1 ≤ 15) ∧ findAvailableSlot registry124 15 = some 3 :=
  ⟨by decide, (findAvailableSlot_correct registry124 15 (by decide)).2.2⟩

/-- C2 counterexample: when the slot is already allocated, `addAllocation`
replaces the stored allocation and the subsequent `removeAllocation` deletes
the key entirely, so the original allocation map is not restored. -/
theorem add_remove_roundtrip_cex :
    (removeAllocation (addAllocation registry124 1 (sampleAllocation 9)) 1).allocations ≠
      registry124.allocations := by decide

/-- C2 (amended): if the slot's decimal key is absent from the registry, then
`removeAllocation` after `addAllocation` on that slot restores the allocation
map exactly, and `removeAllocation` alone on that absent slot returns the
registry unchanged.  (Both functions are pure by construction in this model,
mirroring the source's copy-on-write object spreads.) -/
theorem add_remove_roundtrip (registry : Registry) (slot : Nat) (allocation : Allocation)
    (h : jsGet registry.allocations (natToChars slot) = none) :
    removeAllocation (addAllocation registry slot allocation) slot = registry ∧
    removeAllocation registry slot = registry := by
  have hk : jsHasKey registry.allocations (natToChars slot) = false := by
    unfold jsHasKey; rw [h]; rfl
  constructor
  · unfold addAllocation removeAllocation setKey
    rw [hk]
    simp only [Bool.false_eq_true, if_false]
    cases registry with
    | mk version allocations =>
      simp only [Registry.mk.injEq, and_true, true_and]
      rw [removeKey_append_single, removeKey_of_absent _ _ h]
  · unfold removeAllocation
    cases registry with
    | mk version allocations =>
      simp only [Registry.mk.injEq, and_true, true_and]
      exact removeKey_of_absent _ _ h

/-- C2 witness: the amended round trip at a concrete free slot. -/
theorem add_remove_roundtrip_witness :
    jsGet registry124.allocations (natToChars 3) = none ∧
    removeAllocation (addAllocation registry124 3 (sampleAllocation 3)) 3 = registry124 :=
  ⟨by decide, (add_remove_roundtrip registry124 3 (sampleAllocation 3) (by decide)).1⟩

/-- C10: `addAllocation` and `removeAllocation` leave every other slot's
stored allocation unchanged, and `addAllocation` binds the target slot to
exactly the given allocation, replacing any previous binding rather than
failing. -/
theorem alloc_frame (registry : Registry) (s t : Nat) (allocation : Allocation)
    (h : t ≠ s) :
    jsGet (addAllocation registry s allocation).allocations (natToChars t) =
      jsGet registry.allocations (natToChars t) ∧
    jsGet (removeAllocation registry s).allocations (natToChars t) =
      jsGet registry.allocations (natToChars t) ∧
    jsGet (addAllocation registry s allocation).allocations (natToChars s) = some allocation := by
  have hne : natToChars t ≠ natToChars s := fun hh => h (natToChars_injective hh)
  refine ⟨?_, ?_, ?_⟩
  · exact jsGet_setKey_ne _ _ _ _ hne
  · exact jsGet_removeKey_ne _ _ _ hne
  · exact jsGet_setKey_self _ _ _

/-- C10 witness: the frame property at concrete slots 2 and 1 on an occupied
registry (slot 1 is replaced, slot 2 untouched). -/
theorem alloc_frame_witness :
    (2 ≠ 1) ∧
    jsGet (addAllocation registry124 1 (sampleAllocation 9)).allocations (natToChars 2) =
      jsGet registry124.allocations (natToChars 2) :=
  ⟨by decide, (alloc_frame registry124 1 2 (sampleAllocation 9) (by decide)).1⟩

/-- C8: for distinct slots within `[1, maxSlots]`, a non-empty service list and
a stride exceeding the spread of default ports, the port values produced by
`calculatePorts` for the two slots are disjoint. -/
theorem calculatePorts_disjoint (s1 s2 maxSlots stride : Nat)
    (services : List ServiceConfig)
    (hne : s1 ≠ s2) (h1 : 1 ≤ s1) (h1m : s1 ≤ maxSlots) (h2 : 1 ≤ s2) (h2m : s2 ≤ maxSlots)
    (hsvc : services ≠ [])
    (hspread : ∀ a ∈ services, ∀ b ∈ services, a.defaultPort - b.defaultPort < stride) :
    ∀ prt, prt ∈ (calculatePorts s1 services stride).map Prod.snd →
      prt ∈ (calculatePorts s2 services stride).map Prod.snd → False := by
  intro prt hp1 hp2
  simp only [calculatePorts, List.map_map, List.mem_map, Function.comp] at hp1 hp2
  obtain ⟨a, ha, hpa⟩ := hp1
  obtain ⟨b, hb, hpb⟩ := hp2
  have key : ∀ x y : Nat, x < y → ∀ c d : ServiceConfig, c ∈ services → d ∈ services →
      x * stride + c.defaultPort = y * stride + d.defaultPort → False := by
    intro x y hxy c d hc hd heq
    obtain ⟨k, rfl⟩ : ∃ k, y = x + (k + 1) := ⟨y - x - 1, by omega⟩
    rw [Nat.add_mul] at heq
    have hks : stride ≤ (k + 1) * stride := Nat.le_mul_of_pos_left stride (by omega)
    have hcd := hspread c hc d hd
    have hdc := hspread d hd c hc
    omega
  rcases Nat.lt_or_ge s1 s2 with hlt | hge
  · exact key s1 s2 hlt a b ha hb (by omega)
  · have hlt2 : s2 < s1 := by omega
    exact key s2 s1 hlt2 b a hb ha (by omega)

/-- C8 witness: slots 1 and 2 with the test's three services and stride 100
give disjoint port sets (checked via the theorem at a sample port). -/
theorem calculatePorts_disjoint_witness :
    ¬ (3100 ∈ (calculatePorts 1 [⟨"app".toList, 3000⟩, ⟨"server".toList, 3001⟩] 100).map
        Prod.snd ∧
      3100 ∈ (calculatePorts 2 [⟨"app".toList, 3000⟩, ⟨"server".toList, 3001⟩] 100).map
        Prod.snd) :=
  fun ⟨ha, hb⟩ =>
    calculatePorts_disjoint 1 2 15 100 [⟨"app".toList, 3000⟩, ⟨"server".toList, 3001⟩]
      (by decide) (by decide) (by decide) (by decide) (by decide) (by decide)
      (by decide) 3100 ha hb

/-! ### Env patcher -/

/-- Rule-type discriminator of a patch rule. -/
inductive PatchType where
  | database
  | redis
  | port
  | url
deriving DecidableEq, Repr

/-- A single env var patch rule (`patchSchema`): variable name, type, and an
optional service name. -/
structure PatchConfig where
  var : List Char
  type : PatchType
  service : Option (List Char)
deriving DecidableEq, Repr

/-- Context passed to the env patcher with computed values for a slot. -/
structure PatchContext where
  dbName : List Char
  redisDb : Nat
  ports : List (List Char × Nat)
deriving DecidableEq, Repr

/-- First character class of the assignment regex, `[A-Z_]`. -/
def isNameStart (c : Char) : Bool := (decide ('A' ≤ c) && decide (c ≤ 'Z')) || c == '_'

/-- Subsequent character class of the assignment regex, `[A-Z0-9_]`. -/
def isNameChar (c : Char) : Bool :=
  (decide ('A' ≤ c) && decide (c ≤ 'Z')) || isDigitCh c || c == '_'

/-- Match of `^([A-Z_][A-Z0-9_]*)=(.*)`: the variable name is the maximal
name-character run at the start of the line, which must be followed by `=`;
everything after the `=` is the raw value. -/
def matchAssign (line : List Char) : Option (List Char × List Char) :=
  match line with
  | [] => none
  | c :: _ =>
    if isNameStart c then
      match line.dropWhile isNameChar with
      | d :: value => if d = '=' then some (line.takeWhile isNameChar, value) else none
      | [] => none
    else none

/-- `rawValue.replace(/^["']|["']$/g, '')`: remove a leading quote character
if present, and a trailing quote character if present (each at most once). -/
def stripQuotes (v : List Char) : List Char :=
  let t := match v with
    | c :: rest => if isQuoteCh c then rest else v
    | [] => v
  match t.getLast? with
  | some c => if isQuoteCh c then t.dropLast else t
  | none => t

/-- The quote layer re-applied to the output: `"` if the raw value starts with
`"`, else `'` if it starts with `'`, else nothing. -/
def quoteOf (v : List Char) : List Char :=
  match v with
  | c :: _ => if c = dquote then [dquote] else if c = squote then [squote] else []
  | [] => []

/-- Character class `[^/?]` of the database-URL regex. -/
def notSep (c : Char) : Bool := !(c == '/' || c == '?')

/-- `url.replace(/\/([^/?]+)(\?|$)/, "/" + dbName + "$2")`: at the first `/`
followed by a non-empty run of non-`/?` characters that ends at `?` or at the
end of the string, replace that run with the database name. -/
def replaceDbSegment (v db : List Char) : List Char :=
  match v with
  | [] => []
  | c :: rest =>
    if c = '/' then
      if rest.takeWhile notSep ≠ [] ∧
          (rest.dropWhile notSep = [] ∨ (rest.dropWhile notSep).head? = some '?') then
        '/' :: (db ++ rest.dropWhile notSep)
      else c :: replaceDbSegment rest db
    else c :: replaceDbSegment rest db

/-- `patchRedisUrl`: if the value ends in `/<digits>`, replace the final
`/<digits>` suffix by `/<redisDb>`; otherwise append `/<redisDb>`. -/
def patchRedisUrl (url : List Char) (redisDb : Nat) : List Char :=
  if url.reverse.takeWhile isDigitCh ≠ [] ∧
      (url.reverse.drop (url.reverse.takeWhile isDigitCh).length).head? = some '/' then
    (url.reverse.drop ((url.reverse.takeWhile isDigitCh).length + 1)).reverse ++
      ('/' :: natToChars redisDb)
  else url ++ ('/' :: natToChars redisDb)

/-- Head-of-list digit test for the `:(\d+)` match. -/
def headIsDigit (l : List Char) : Bool :=
  match l with
  | d :: _ => isDigitCh d
  | [] => false

/-- `value.replace(/:(\d+)/, ":" + newPort)`: replace the first occurrence of
`:` followed by a maximal non-empty digit run with `:` and the new port. -/
def replacePortColon (v pd : List Char) : List Char :=
  match v with
  | [] => []
  | c :: rest =>
    if c = ':' ∧ headIsDigit rest then ':' :: (pd ++ rest.dropWhile isDigitCh)
    else c :: replacePortColon rest pd

/-- Error message of `patchPort` (the thrown `Error`). -/
def portErrorMsg : List Char := "Port patch requires a valid service name".toList

/-- Error message of `patchUrlPort` (the thrown `Error`). -/
def urlErrorMsg : List Char := "URL patch requires a valid service name".toList

/-- `applyPatch`: dispatch on the rule type.  `database` and `redis` are pure
rewrites; `port` and `url` first resolve the rule's service in the context's
port map and throw if the service name is falsy or absent. -/
def applyPatch (value : List Char) (patch : PatchConfig) (context : PatchContext) :
    Except (List Char) (List Char) :=
  match patch.type with
  | .database => .ok (replaceDbSegment value context.dbName)
  | .redis => .ok (patchRedisUrl value context.redisDb)
  | .port =>
    match patch.service with
    | none => .error portErrorMsg
    | some s =>
      if s = [] then .error portErrorMsg
      else
        match jsGet context.ports s with
        | none => .error portErrorMsg
        | some prt => .ok (natToChars prt)
  | .url =>
    match patch.service with
    | none => .error urlErrorMsg
    | some s =>
      if s = [] then .error urlErrorMsg
      else
        match jsGet context.ports s with
        | none => .error urlErrorMsg
        | some prt => .ok (replacePortColon value (natToChars prt))

/-- Lookup in the `Map` built from the patch list keyed by `var`; a JS `Map`
constructor keeps the last entry for a duplicated key. -/
def lookupPatch (patches : List PatchConfig) (n : List Char) : Option PatchConfig :=
  patches.reverse.find? (fun p => p.var == n)

/-- Per-line processing of `patchEnvContent`: non-assignment lines and
assignment lines without a registered rule pass through verbatim; otherwise
the unquoted value is transformed and re-wrapped in its original quote. -/
def processLine (patches : List PatchConfig) (context : PatchContext) (line : List Char) :
    Except (List Char) (List Char) :=
  match matchAssign line with
  | none => .ok line
  | some (n, rawValue) =>
    match lookupPatch patches n with
    | none => .ok line
    | some patch =>
      match applyPatch (stripQuotes rawValue) patch context with
      | .error e => .error e
      | .ok patched => .ok (n ++ '=' :: (quoteOf rawValue ++ patched ++ quoteOf rawValue))

/-- The `lines.map(...)` pass with JS exception propagation: the first line
that throws aborts the whole call. -/
def processLines (patches : List PatchConfig) (context : PatchContext) :
    List (List Char) → Except (List Char) (List (List Char))
  | [] => .ok []
  | l :: rest =>
    match processLine patches context l with
    | .error e => .error e
    | .ok l2 =>
      match processLines patches context rest with
      | .error e => .error e
      | .ok rest2 => .ok (l2 :: rest2)

/-- Contribution of one line to the `found` set: its variable name when the
line matches the assignment regex and has a registered rule. -/
def foundEntry (patches : List PatchConfig) (l : List Char) : Option (List Char) :=
  match matchAssign l with
  | some (n, _) => if (lookupPatch patches n).isSome then some n else none
  | none => none

/-- The `found` set: variable names of source lines that matched the
assignment regex and had a registered rule. -/
def foundVars (patches : List PatchConfig) (lines : List (List Char)) : List (List Char) :=
  lines.filterMap (foundEntry patches)

/-- Post-pass of `patchEnvContent`: for every rule whose variable was not
found, a `port`-type rule with a truthy service name present in the port map
contributes a new `NAME=value` line; every other rule contributes nothing. -/
def appendedLines (patches : List PatchConfig) (found : List (List Char))
    (context : PatchContext) : List (List Char) :=
  patches.filterMap (fun p =>
    if found.contains p.var then none
    else
      match p.type, p.service with
      | .port, some s =>
        if s = [] then none
        else
          match jsGet context.ports s with
          | some prt => some (p.var ++ '=' :: natToChars prt)
          | none => none
      | _, _ => none)

/-- `content.split('\n')` (JS string split with a single-character
separator). -/
def splitNl : List Char → List (List Char)
  | [] => [[]]
  | c :: rest =>
    match splitNl rest with
    | l :: ls => if c = '\n' then [] :: l :: ls else (c :: l) :: ls
    | [] => [[c]]

/-- `lines.join('\n')`. -/
def joinNl : List (List Char) → List Char
  | [] => []
  | [l] => l
  | l :: rest => l ++ '\n' :: joinNl rest

/-- `patchEnvContent`: split into lines, process each line (propagating the
first thrown error), append the post-pass lines, and re-join. -/
def patchEnvContent (content : List Char) (patches : List PatchConfig)
    (context : PatchContext) : Except (List Char) (List Char) :=
  match processLines patches context (splitNl content) with
  | .error e => .error e
  | .ok lines2 =>
    .ok (joinNl (lines2 ++ appendedLines patches (foundVars patches (splitNl content)) context))

/-- One configured env file: a source path (relative to both roots) and its
patch rules. -/
structure EnvFileConfig where
  source : List Char
  patches : List PatchConfig
deriving DecidableEq, Repr

/-- `copyAndPatchAllEnvFiles`: iterate the configured files; missing sources
are skipped; each existing source is read, patched and written to the same
relative path under the target root.  The model returns the list of files
written (in order) and the first uncaught patch error, if any; a thrown patch
error aborts the loop before the file is written. -/
def copyAndPatchAllEnvFiles (envFiles : List EnvFileConfig)
    (mainFiles : List (List Char × List Char)) (context : PatchContext) :
    List (List Char × List Char) × Option (List Char) :=
  match envFiles with
  | [] => ([], none)
  | envFile :: rest =>
    match jsGet mainFiles envFile.source with
    | none => copyAndPatchAllEnvFiles rest mainFiles context
    | some content =>
      match patchEnvContent content envFile.patches context with
      | .error e => ([], some e)
      | .ok patched =>
        let r := copyAndPatchAllEnvFiles rest mainFiles context
        ((envFile.source, patched) :: r.1, r.2)

/-! ### Registry reading and schema validation -/

/-- Parsed JSON values.  Numbers are modelled as integers: every numeric field
of the registry schema carries an `.int()` refinement, so non-integral numbers
are rejected by the source schema and integral ones are what remains. -/
inductive Json where
  | null
  | bool (b : Bool)
  | num (n : Int)
  | str (s : List Char)
  | arr (elems : List Json)
  | obj (fields : List (List Char × Json))
deriving Repr

/-- Validation failure message (zod `ValidationError`). -/
def validationErrorMsg : List Char := "ValidationError".toList

/-- Consume exactly `k` decimal digits. -/
def expectDigits : Nat → List Char → Option (List Char)
  | 0, l => some l
  | _ + 1, [] => none
  | k + 1, c :: rest => if isDigitCh c then expectDigits k rest else none

/-- Consume exactly the given character. -/
def expectChar (c : Char) : List Char → Option (List Char)
  | [] => none
  | d :: rest => if d = c then some rest else none

/-- The zod `z.string().datetime()` format check:
`\d{4}-\d{2}-\d{2}T\d{2}:\d{2}:\d{2}(\.\d+)?Z`. -/
def isDatetime (s : List Char) : Bool :=
  match (((((((((((expectDigits 4 s).bind (expectChar '-')).bind
      (expectDigits 2)).bind (expectChar '-')).bind (expectDigits 2)).bind
      (expectChar 'T')).bind (expectDigits 2)).bind (expectChar ':')).bind
      (expectDigits 2)).bind (expectChar ':')).bind (expectDigits 2)) with
  | none => false
  | some rest =>
    match rest with
    | ['Z'] => true
    | '.' :: rest2 =>
      !(rest2.takeWhile isDigitCh).isEmpty && (rest2.dropWhile isDigitCh == ['Z'])
    | _ => false

/-- `z.string().min(1)` on an object field. -/
def parseString1 (fields : List (List Char × Json)) (key : List Char) :
    Except (List Char) (List Char) :=
  match jsGet fields key with
  | some (.str s) => if s = [] then .error validationErrorMsg else .ok s
  | _ => .error validationErrorMsg

/-- `z.number().int().min(1)` on an object field (the `.int()` refinement is
inherent to the integer number model). -/
def parseNatMin1 (fields : List (List Char × Json)) (key : List Char) :
    Except (List Char) Nat :=
  match jsGet fields key with
  | some (.num n) => if 1 ≤ n then .ok n.toNat else .error validationErrorMsg
  | _ => .error validationErrorMsg

/-- `z.record(z.string(), z.number().int().positive())` over the entries of the
`ports` object. -/
def parsePorts : List (List Char × Json) → Except (List Char) (List (List Char × Nat))
  | [] => .ok []
  | (k, .num n) :: rest =>
    if 1 ≤ n then
      match parsePorts rest with
      | .error e => .error e
      | .ok rest2 => .ok ((k, n.toNat) :: rest2)
    else .error validationErrorMsg
  | _ :: _ => .error validationErrorMsg

/-- Sequencing of fallible validation steps (zod validates fields in order and
fails on the first violation). -/
def exceptStep {ε α β : Type} (x : Except ε α) (f : α → Except ε β) : Except ε β :=
  match x with
  | .error e => .error e
  | .ok a => f a

theorem exceptStep_ok {ε α β : Type} {x : Except ε α} {f : α → Except ε β} {b : β} :
    exceptStep x f = .ok b ↔ ∃ a, x = .ok a ∧ f a = .ok b := by
  cases x <;> simp [exceptStep]

/-- The `ports` field: must be an object, validated as a record of positive
integers. -/
def parsePortsField (fields : List (List Char × Json)) :
    Except (List Char) (List (List Char × Nat)) :=
  match jsGet fields "ports".toList with
  | some (.obj pfields) => parsePorts pfields
  | _ => .error validationErrorMsg

/-- The `createdAt` field: must be a string in ISO-8601 datetime format. -/
def parseCreatedAt (fields : List (List Char × Json)) : Except (List Char) (List Char) :=
  match jsGet fields "createdAt".toList with
  | some (.str ca) => if isDatetime ca then .ok ca else .error validationErrorMsg
  | _ => .error validationErrorMsg

/-- `allocationSchema.parse`: all six fields validated, unknown keys
stripped. -/
def parseAllocation (j : Json) : Except (List Char) Allocation :=
  match j with
  | .obj fields =>
    exceptStep (parseString1 fields "worktreePath".toList) (fun wp =>
    exceptStep (parseString1 fields "branchName".toList) (fun bn =>
    exceptStep (parseString1 fields "dbName".toList) (fun dn =>
    exceptStep (parseNatMin1 fields "redisDb".toList) (fun rd =>
    exceptStep (parsePortsField fields) (fun po =>
    exceptStep (parseCreatedAt fields) (fun ca =>
    .ok { worktreePath := wp, branchName := bn, dbName := dn,
          redisDb := rd, ports := po, createdAt := ca }))))))
  | _ => .error validationErrorMsg

/-- `z.record(z.string(), allocationSchema)` over the `allocations` object. -/
def parseAllocations : List (List Char × Json) →
    Except (List Char) (List (List Char × Allocation))
  | [] => .ok []
  | (k, v) :: rest =>
    match parseAllocation v with
    | .error e => .error e
    | .ok a =>
      match parseAllocations rest with
      | .error e => .error e
      | .ok rest2 => .ok ((k, a) :: rest2)

/-- The `version` field: `z.literal(1)`. -/
def parseVersion (fields : List (List Char × Json)) : Except (List Char) Unit :=
  match jsGet fields "version".toList with
  | some (.num n) => if n = 1 then .ok () else .error validationErrorMsg
  | _ => .error validationErrorMsg

/-- The `allocations` field: must be an object, validated as a record of
allocations. -/
def parseAllocationsField (fields : List (List Char × Json)) :
    Except (List Char) (List (List Char × Allocation)) :=
  match jsGet fields "allocations".toList with
  | some (.obj afields) => parseAllocations afields
  | _ => .error validationErrorMsg

/-- `registrySchema.parse`: the `version` field must be the literal `1` and
`allocations` must be a record of valid allocations. -/
def parseRegistry (j : Json) : Except (List Char) Registry :=
  match j with
  | .obj fields =>
    exceptStep (parseVersion fields) (fun _ =>
    exceptStep (parseAllocationsField fields) (fun allocs =>
    .ok { version := 1, allocations := allocs }))
  | _ => .error validationErrorMsg

/-- `readRegistry`: the file system is abstracted as the optional parsed JSON
content of the registry file; an absent file yields the empty registry, a
present file is validated against the schema. -/
def readRegistry (file : Option Json) : Except (List Char) Registry :=
  match file with
  | none => .ok createEmptyRegistry
  | some j => parseRegistry j

/-- Structural validity of a parsed allocation, as promised by the schema. -/
def validAllocation (a : Allocation) : Bool :=
  !a.worktreePath.isEmpty && !a.branchName.isEmpty && !a.dbName.isEmpty &&
    decide (1 ≤ a.redisDb) && a.ports.all (fun p => decide (1 ≤ p.2)) &&
    isDatetime a.createdAt

theorem parsePorts_positive (pfields : List (List Char × Json)) (po : List (List Char × Nat))
    (h : parsePorts pfields = .ok po) : ∀ p ∈ po, 1 ≤ p.2 := by
  induction pfields generalizing po with
  | nil =>
    simp only [parsePorts] at h
    obtain rfl : ([] : List (List Char × Nat)) = po := by simpa using h
    simp
  | cons kv rest ih =>
    obtain ⟨k, v⟩ := kv
    cases v with
    | num n =>
      simp only [parsePorts] at h
      by_cases hn : 1 ≤ n
      · rw [if_pos hn] at h
        cases hrest : parsePorts rest with
        | error e => rw [hrest] at h; exact absurd h (by simp)
        | ok rest2 =>
          rw [hrest] at h
          obtain rfl : (k, n.toNat) :: rest2 = po := by simpa using h
          intro p hp
          rcases List.mem_cons.mp hp with rfl | hmem
          · simpa using by omega
          · exact ih rest2 hrest p hmem
      · rw [if_neg hn] at h; exact absurd h (by simp)
    | null => exact absurd h (by simp [parsePorts])
    | bool b => exact absurd h (by simp [parsePorts])
    | str s => exact absurd h (by simp [parsePorts])
    | arr es => exact absurd h (by simp [parsePorts])
    | obj fs => exact absurd h (by simp [parsePorts])

theorem parseString1_ok (fields : List (List Char × Json)) (key s : List Char)
    (h : parseString1 fields key = .ok s) : s ≠ [] := by
  unfold parseString1 at h
  cases hg : jsGet fields key with
  | none => rw [hg] at h; exact absurd h (by simp)
  | some v =>
    rw [hg] at h
    cases v with
    | str s2 =>
      by_cases hs : s2 = []
      · simp [hs] at h
      · simp only [if_neg hs] at h
        obtain rfl : s2 = s := by simpa using h
        exact hs
    | null => exact absurd h (by simp)
    | bool b => exact absurd h (by simp)
    | num n => exact absurd h (by simp)
    | arr es => exact absurd h (by simp)
    | obj fs => exact absurd h (by simp)

theorem parseNatMin1_ok (fields : List (List Char × Json)) (key : List Char) (m : Nat)
    (h : parseNatMin1 fields key = .ok m) : 1 ≤ m := by
  unfold parseNatMin1 at h
  cases hg : jsGet fields key with
  | none => rw [hg] at h; exact absurd h (by simp)
  | some v =>
    rw [hg] at h
    cases v with
    | num n =>
      by_cases hn : 1 ≤ n
      · simp only [if_pos hn] at h
        obtain rfl : n.toNat = m := by simpa using h
        omega
      · simp [hn] at h
    | null => exact absurd h (by simp)
    | bool b => exact absurd h (by simp)
    | str s => exact absurd h (by simp)
    | arr es => exact absurd h (by simp)
    | obj fs => exact absurd h (by simp)

theorem parsePortsField_ok (fields : List (List Char × Json)) (po : List (List Char × Nat))
    (h : parsePortsField fields = .ok po) : ∀ p ∈ po, 1 ≤ p.2 := by
  unfold parsePortsField at h
  cases hg : jsGet fields "ports".toList with
  | none => rw [hg] at h; exact absurd h (by simp)
  | some v =>
    rw [hg] at h
    cases v with
    | obj pfields => exact parsePorts_positive pfields po h
    | null => exact absurd h (by simp)
    | bool b => exact absurd h (by simp)
    | num n => exact absurd h (by simp)
    | str s => exact absurd h (by simp)
    | arr es => exact absurd h (by simp)

theorem parseCreatedAt_ok (fields : List (List Char × Json)) (ca : List Char)
    (h : parseCreatedAt fields = .ok ca) : isDatetime ca = true := by
  unfold parseCreatedAt at h
  cases hg : jsGet fields "createdAt".toList with
  | none => rw [hg] at h; exact absurd h (by simp)
  | some v =>
    rw [hg] at h
    cases v with
    | str s =>
      have h2 : (if isDatetime s = true then (Except.ok s : Except (List Char) (List Char))
          else .error validationErrorMsg) = .ok ca := h
      by_cases hdt : isDatetime s = true
      · rw [if_pos hdt] at h2
        obtain rfl : s = ca := by simpa using h2
        exact hdt
      · rw [if_neg hdt] at h2; exact absurd h2 (by simp)
    | null => exact absurd h (by simp)
    | bool b => exact absurd h (by simp)
    | num n => exact absurd h (by simp)
    | arr es => exact absurd h (by simp)
    | obj fs => exact absurd h (by simp)

theorem parseAllocation_valid (j : Json) (a : Allocation)
    (h : parseAllocation j = .ok a) : validAllocation a = true := by
  cases j with
  | obj fields =>
    simp only [parseAllocation, exceptStep_ok] at h
    obtain ⟨wp, hwp, bn, hbn, dn, hdn, rd, hrd, po, hpo, ca, hca, hfin⟩ := h
    obtain rfl : Allocation.mk wp bn dn rd po ca = a := by simpa using hfin
    have h1 := parseString1_ok _ _ _ hwp
    have h2 := parseString1_ok _ _ _ hbn
    have h3 := parseString1_ok _ _ _ hdn
    have h4 := parseNatMin1_ok _ _ _ hrd
    have h5 := parsePortsField_ok fields po hpo
    have h6 := parseCreatedAt_ok fields ca hca
    simp only [validAllocation, Bool.and_eq_true, List.all_eq_true]
    refine ⟨⟨⟨⟨⟨?_, ?_⟩, ?_⟩, ?_⟩, ?_⟩, h6⟩
    · simpa using h1
    · simpa using h2
    · simpa using h3
    · simpa using h4
    · intro p hp
      simpa using h5 p hp
  | null => exact absurd h (by simp [parseAllocation])
  | bool b => exact absurd h (by simp [parseAllocation])
  | num n => exact absurd h (by simp [parseAllocation])
  | str s => exact absurd h (by simp [parseAllocation])
  | arr es => exact absurd h (by simp [parseAllocation])

theorem parseAllocations_keys (afields : List (List Char × Json))
    (allocs : List (List Char × Allocation)) (h : parseAllocations afields = .ok allocs) :
    allocs.map Prod.fst = afields.map Prod.fst ∧
      ∀ entry ∈ allocs, validAllocation entry.2 = true := by
  induction afields generalizing allocs with
  | nil =>
    simp only [parseAllocations] at h
    obtain rfl : ([] : List (List Char × Allocation)) = allocs := by simpa using h
    simp
  | cons kv rest ih =>
    obtain ⟨k, v⟩ := kv
    simp only [parseAllocations] at h
    cases hv : parseAllocation v with
    | error e => rw [hv] at h; exact absurd h (by simp)
    | ok a =>
      rw [hv] at h
      cases hrest : parseAllocations rest with
      | error e => rw [hrest] at h; exact absurd h (by simp)
      | ok rest2 =>
        rw [hrest] at h
        obtain rfl : (k, a) :: rest2 = allocs := by simpa using h
        obtain ⟨ih1, ih2⟩ := ih rest2 hrest
        constructor
        · simp [ih1]
        · intro entry hmem
          rcases List.mem_cons.mp hmem with rfl | hmem2
          · exact parseAllocation_valid v a hv
          · exact ih2 entry hmem2

theorem parseAllocationsField_ok (fields : List (List Char × Json))
    (allocs : List (List Char × Allocation))
    (h : parseAllocationsField fields = .ok allocs) :
    ∃ afields, jsGet fields "allocations".toList = some (.obj afields) ∧
      parseAllocations afields = .ok allocs := by
  unfold parseAllocationsField at h
  cases hg : jsGet fields "allocations".toList with
  | none => rw [hg] at h; exact absurd h (by simp)
  | some v =>
    rw [hg] at h
    cases v with
    | obj afields => exact ⟨afields, rfl, h⟩
    | null => exact absurd h (by simp)
    | bool b => exact absurd h (by simp)
    | num n => exact absurd h (by simp)
    | str s => exact absurd h (by simp)
    | arr es => exact absurd h (by simp)

/-- Registry JSON with the wrong version literal. -/
def badVersionJson : Json :=
  .obj [("version".toList, .num 2), ("allocations".toList, .obj [])]

/-- Registry JSON with a malformed allocation (missing `branchName`). -/
def badAllocJson : Json :=
  .obj [("version".toList, .num 1),
    ("allocations".toList, .obj [(natToChars 1, .obj
      [("worktreePath".toList, .str "/tmp/wt1".toList),
       ("dbName".toList, .str "db_wt1".toList),
       ("redisDb".toList, .num 1),
       ("ports".toList, .obj [("app".toList, .num 3100)]),
       ("createdAt".toList, .str "2024-01-01T00:00:00Z".toList)])])]

/-- Registry JSON with a wrong field type (`redisDb` is a string). -/
def badTypeJson : Json :=
  .obj [("version".toList, .num 1),
    ("allocations".toList, .obj [(natToChars 1, .obj
      [("worktreePath".toList, .str "/tmp/wt1".toList),
       ("branchName".toList, .str "feat/test-1".toList),
       ("dbName".toList, .str "db_wt1".toList),
       ("redisDb".toList, .str "1".toList),
       ("ports".toList, .obj [("app".toList, .num 3100)]),
       ("createdAt".toList, .str "2024-01-01T00:00:00Z".toList)])])]

/-- Well-formed registry JSON used by the C9 witness. -/
def goodRegistryJson : Json :=
  .obj [("version".toList, .num 1),
    ("allocations".toList, .obj [(natToChars 1, .obj
      [("worktreePath".toList, .str "/tmp/wt1".toList),
       ("branchName".toList, .str "feat/test-1".toList),
       ("dbName".toList, .str "db_wt1".toList),
       ("redisDb".toList, .num 1),
       ("ports".toList, .obj [("app".toList, .num 3100)]),
       ("createdAt".toList, .str "2024-01-01T00:00:00Z".toList)])])]

/-- C9: `readRegistry` yields the empty registry when the file is absent; a
successful parse yields version 1 and exactly one valid allocation per key of
the JSON `allocations` object (nothing coerced or dropped); a wrong version
literal, a malformed allocation, or a wrong field type is a validation
error. -/
theorem readRegistry_spec :
    readRegistry none = .ok { version := 1, allocations := [] } ∧
    (∀ j registry, readRegistry (some j) = .ok registry →
      registry.version = 1 ∧
      ∃ fields afields, j = .obj fields ∧
        jsGet fields "allocations".toList = some (.obj afields) ∧
        registry.allocations.map Prod.fst = afields.map Prod.fst ∧
        ∀ entry ∈ registry.allocations, validAllocation entry.2 = true) ∧
    readRegistry (some badVersionJson) = .error validationErrorMsg ∧
    readRegistry (some badAllocJson) = .error validationErrorMsg ∧
    readRegistry (some badTypeJson) = .error validationErrorMsg := by
  refine ⟨rfl, ?_, by rfl, by rfl, by rfl⟩
  intro j registry h
  cases j with
  | obj fields =>
    simp only [readRegistry, parseRegistry, exceptStep_ok] at h
    obtain ⟨u, hver, allocs, hall, hfin⟩ := h
    obtain rfl : Registry.mk 1 allocs = registry := by simpa using hfin
    obtain ⟨afields, ha, hp⟩ := parseAllocationsField_ok fields allocs hall
    obtain ⟨h1, h2⟩ := parseAllocations_keys afields allocs hp
    exact ⟨rfl, fields, afields, rfl, ha, h1, h2⟩
  | null => exact absurd h (by simp [readRegistry, parseRegistry])
  | bool b => exact absurd h (by simp [readRegistry, parseRegistry])
  | num n => exact absurd h (by simp [readRegistry, parseRegistry])
  | str s => exact absurd h (by simp [readRegistry, parseRegistry])
  | arr es => exact absurd h (by simp [readRegistry, parseRegistry])

/-- C9 witness: the soundness clause of the theorem applied to a concrete
well-formed registry file. -/
theorem readRegistry_spec_witness :
    (Registry.mk 1 [(natToChars 1, Allocation.mk "/tmp/wt1".toList "feat/test-1".toList
      "db_wt1".toList 1 [("app".toList, 3100)] "2024-01-01T00:00:00Z".toList)]).version = 1 :=
  (readRegistry_spec.2.1 goodRegistryJson
    (Registry.mk 1 [(natToChars 1, Allocation.mk "/tmp/wt1".toList "feat/test-1".toList
      "db_wt1".toList 1 [("app".toList, 3100)] "2024-01-01T00:00:00Z".toList)])
    (by rfl)).1

/-! ### Env patcher error behaviour -/

/-- C6: a `port` or `url` rule whose service is missing, or names a service
absent from the context's port map, makes `applyPatch` throw; `database` and
`redis` rules always succeed; and every file actually written by
`copyAndPatchAllEnvFiles` was patched successfully, so a patch failure on a
file prevents its output from being written. -/
theorem patch_error_behaviour :
    (∀ value patch context, (patch.type = PatchType.port ∨ patch.type = PatchType.url) →
      (patch.service = none ∨
        ∃ s, patch.service = some s ∧ jsGet (PatchContext.ports context) s = none) →
      ∃ e, applyPatch value patch context = .error e) ∧
    (∀ value patch context, (patch.type = PatchType.database ∨ patch.type = PatchType.redis) →
      ∃ w, applyPatch value patch context = .ok w) ∧
    (∀ envFiles mainFiles context target output,
      (target, output) ∈ (copyAndPatchAllEnvFiles envFiles mainFiles context).1 →
      ∃ envFile, envFile ∈ envFiles ∧ EnvFileConfig.source envFile = target ∧
        ∃ content, jsGet mainFiles (EnvFileConfig.source envFile) = some content ∧
          patchEnvContent content (EnvFileConfig.patches envFile) context = .ok output) := by
  refine ⟨?_, ?_, ?_⟩
  · intro value patch context hty hsvc
    rcases hty with hty | hty <;>
    · simp only [applyPatch, hty]
      rcases hsvc with hnone | ⟨s, hs, hget⟩
      · rw [hnone]; exact ⟨_, rfl⟩
      · rw [hs]
        by_cases hsnil : s = []
        · exact ⟨_, by simp [hsnil]; rfl⟩
        · exact ⟨_, by simp [hsnil, hget]; rfl⟩
  · intro value patch context hty
    rcases hty with hty | hty <;> simp [applyPatch, hty]
  · intro envFiles
    induction envFiles with
    | nil => intro mainFiles context target output h; simp [copyAndPatchAllEnvFiles] at h
    | cons envFile rest ih =>
      intro mainFiles context target output h
      simp only [copyAndPatchAllEnvFiles] at h
      cases hg : jsGet mainFiles envFile.source with
      | none =>
        rw [hg] at h
        obtain ⟨ef, hmem, hrest⟩ := ih mainFiles context target output h
        exact ⟨ef, List.mem_cons_of_mem _ hmem, hrest⟩
      | some content =>
        rw [hg] at h
        have h2 : (target, output) ∈
            (match patchEnvContent content envFile.patches context with
              | .error e => (([] : List (List Char × List Char)), some e)
              | .ok patched =>
                ((envFile.source, patched) :: (copyAndPatchAllEnvFiles rest mainFiles context).1,
                  (copyAndPatchAllEnvFiles rest mainFiles context).2)).1 := h
        cases hp : patchEnvContent content envFile.patches context with
        | error e => rw [hp] at h2; simp at h2
        | ok patched =>
          rw [hp] at h2
          simp only [List.mem_cons] at h2
          rcases h2 with heq | hmem
          · obtain ⟨rfl, rfl⟩ := Prod.mk.injEq .. ▸ heq
            exact ⟨envFile, List.mem_cons_self _ _, rfl, content, hg, hp⟩
          · obtain ⟨ef, hmem2, hrest⟩ := ih mainFiles context target output hmem
            exact ⟨ef, List.mem_cons_of_mem _ hmem2, hrest⟩

/-- C6 witness: the missing-service clause at the test's concrete rule
`{var: PORT, type: port, service: unknownsvc}` and empty port map. -/
theorem patch_error_behaviour_witness :
    ∃ e, applyPatch "3001".toList ⟨"PORT".toList, .port, some "unknownsvc".toList⟩
      ⟨"db".toList, 3, []⟩ = .error e :=
  patch_error_behaviour.1 "3001".toList ⟨"PORT".toList, .port, some "unknownsvc".toList⟩
    ⟨"db".toList, 3, []⟩ (Or.inl rfl) (Or.inr ⟨"unknownsvc".toList, rfl, rfl⟩)

/-! ### Line structure lemmas -/

theorem splitNl_ne_nil (l : List Char) : splitNl l ≠ [] := by
  cases l with
  | nil => simp [splitNl]
  | cons c rest =>
    simp only [splitNl]
    cases splitNl rest with
    | nil => simp
    | cons x xs => by_cases h : c = '\n' <;> simp [h]

theorem splitNl_no_newline (l : List Char) : ∀ s ∈ splitNl l, '\n' ∉ s := by
  induction l with
  | nil =>
    intro s hs
    simp only [splitNl, List.mem_singleton] at hs
    simp [hs]
  | cons c rest ih =>
    intro s hs
    simp only [splitNl] at hs
    cases hrec : splitNl rest with
    | nil => exact absurd hrec (splitNl_ne_nil rest)
    | cons x xs =>
      rw [hrec] at hs
      have hs2 : s ∈ (if c = '\n' then [] :: x :: xs else (c :: x) :: xs) := hs
      by_cases h : c = '\n'
      · rw [if_pos h] at hs2
        rcases List.mem_cons.mp hs2 with rfl | hs3
        · simp
        · exact ih s (hrec ▸ hs3)
      · rw [if_neg h] at hs2
        rcases List.mem_cons.mp hs2 with rfl | hs3
        · intro hmem
          rcases List.mem_cons.mp hmem with rfl | hmem2
          · exact h rfl
          · exact ih x (hrec ▸ List.mem_cons_self x xs) hmem2
        · exact ih s (hrec ▸ List.mem_cons_of_mem x hs3)

theorem splitNl_of_no_newline (l : List Char) (h : '\n' ∉ l) : splitNl l = [l] := by
  induction l with
  | nil => rfl
  | cons c rest ih =>
    have hc : ¬ (c = '\n') := fun hh => h (hh ▸ List.mem_cons_self c rest)
    have hrest : '\n' ∉ rest := fun hh => h (List.mem_cons_of_mem c hh)
    show (match splitNl rest with
      | l :: ls => if c = '\n' then [] :: l :: ls else (c :: l) :: ls
      | [] => [[c]]) = [c :: rest]
    rw [ih hrest]
    simp [hc]

theorem splitNl_append_newline (l t : List Char) (h : '\n' ∉ l) :
    splitNl (l ++ '\n' :: t) = l :: splitNl t := by
  induction l with
  | nil =>
    show (match splitNl t with
      | l :: ls => if '\n' = '\n' then [] :: l :: ls else ('\n' :: l) :: ls
      | [] => [['\n']]) = [] :: splitNl t
    cases hrec : splitNl t with
    | nil => exact absurd hrec (splitNl_ne_nil t)
    | cons x xs => simp
  | cons c rest ih =>
    have hc : ¬ (c = '\n') := fun hh => h (hh ▸ List.mem_cons_self c rest)
    have hrest : '\n' ∉ rest := fun hh => h (List.mem_cons_of_mem c hh)
    show (match splitNl (rest ++ '\n' :: t) with
      | l :: ls => if c = '\n' then [] :: l :: ls else (c :: l) :: ls
      | [] => [[c]]) = (c :: rest) :: splitNl t
    rw [ih hrest]
    simp [hc]

theorem splitNl_joinNl (L : List (List Char)) (hnl : ∀ s ∈ L, '\n' ∉ s) (hne : L ≠ []) :
    splitNl (joinNl L) = L := by
  induction L with
  | nil => exact absurd rfl hne
  | cons l rest ih =>
    cases rest with
    | nil =>
      simp only [joinNl]
      exact splitNl_of_no_newline l (hnl l (List.mem_cons_self _ _))
    | cons l2 rest2 =>
      have h1 : '\n' ∉ l := hnl l (List.mem_cons_self _ _)
      have h2 : ∀ s ∈ l2 :: rest2, '\n' ∉ s := fun s hs => hnl s (List.mem_cons_of_mem _ hs)
      simp only [joinNl]
      rw [splitNl_append_newline _ _ h1, ih h2 (by simp)]

theorem splitNl_joinNl_append (L1 L2 : List (List Char)) (hnl : ∀ s ∈ L1, '\n' ∉ s) :
    ∃ T, splitNl (joinNl (L1 ++ L2)) = L1 ++ T := by
  induction L1 with
  | nil => exact ⟨splitNl (joinNl L2), rfl⟩
  | cons l rest ih =>
    have h1 : '\n' ∉ l := hnl l (List.mem_cons_self _ _)
    have h2 : ∀ s ∈ rest, '\n' ∉ s := fun s hs => hnl s (List.mem_cons_of_mem _ hs)
    obtain ⟨T, hT⟩ := ih h2
    cases hre : rest ++ L2 with
    | nil =>
      obtain ⟨rfl, rfl⟩ := List.append_eq_nil.mp hre
      exact ⟨[], by simp [joinNl, splitNl_of_no_newline l h1]⟩
    | cons x xs =>
      refine ⟨T, ?_⟩
      have hj : joinNl ((l :: rest) ++ L2) = l ++ '\n' :: joinNl (rest ++ L2) := by
        rw [List.cons_append, hre]
        rfl
      rw [hj, splitNl_append_newline _ _ h1, hT]
      simp

/-- A well-formed env variable name: `[A-Z_][A-Z0-9_]*`. -/
def isEnvName (n : List Char) : Bool :=
  match n with
  | [] => false
  | c :: rest => isNameStart c && rest.all isNameChar

theorem isNameStart_isNameChar (c : Char) (h : isNameStart c = true) : isNameChar c = true := by
  unfold isNameStart at h
  unfold isNameChar
  rcases Bool.or_eq_true_iff.mp h with h2 | h2 <;> simp [h2]

theorem isEnvName_all (n : List Char) (h : isEnvName n = true) :
    ∀ c ∈ n, isNameChar c = true := by
  cases n with
  | nil => simp [isEnvName] at h
  | cons c rest =>
    simp only [isEnvName, Bool.and_eq_true] at h
    intro d hd
    rcases List.mem_cons.mp hd with rfl | hd2
    · exact isNameStart_isNameChar _ h.1
    · exact List.all_eq_true.mp h.2 d hd2

theorem takeWhile_append_all (l1 l2 : List Char) (d : Char) (p : Char → Bool)
    (hall : ∀ c ∈ l1, p c = true) (hd : p d = false) :
    (l1 ++ d :: l2).takeWhile p = l1 := by
  induction l1 with
  | nil => simp [List.takeWhile, hd]
  | cons c rest ih =>
    have hc : p c = true := hall c (List.mem_cons_self _ _)
    simp only [List.cons_append, List.takeWhile_cons, hc, if_true]
    rw [ih (fun x hx => hall x (List.mem_cons_of_mem _ hx))]

theorem dropWhile_append_all (l1 l2 : List Char) (d : Char) (p : Char → Bool)
    (hall : ∀ c ∈ l1, p c = true) (hd : p d = false) :
    (l1 ++ d :: l2).dropWhile p = d :: l2 := by
  induction l1 with
  | nil => simp [List.dropWhile, hd]
  | cons c rest ih =>
    have hc : p c = true := hall c (List.mem_cons_self _ _)
    simp only [List.cons_append, List.dropWhile_cons, hc, if_true]
    exact ih (fun x hx => hall x (List.mem_cons_of_mem _ hx))

theorem matchAssign_some (l n raw : List Char) (h : matchAssign l = some (n, raw)) :
    l = n ++ '=' :: raw ∧ isEnvName n = true := by
  cases l with
  | nil => simp [matchAssign] at h
  | cons c rest =>
    simp only [matchAssign] at h
    by_cases hs : isNameStart c = true
    · rw [if_pos hs] at h
      cases hd : (c :: rest).dropWhile isNameChar with
      | nil => rw [hd] at h; simp at h
      | cons d tail =>
        rw [hd] at h
        have h2 : (if d = '=' then some ((c :: rest).takeWhile isNameChar, tail)
            else none) = some (n, raw) := h
        by_cases heq : d = '='
        · subst heq
          rw [if_pos rfl] at h2
          obtain ⟨rfl, rfl⟩ : (c :: rest).takeWhile isNameChar = n ∧ tail = raw := by
            have := Option.some.inj h2
            exact ⟨congrArg Prod.fst this, congrArg Prod.snd this⟩
          constructor
          · conv_lhs => rw [← List.takeWhile_append_dropWhile (p := isNameChar) (l := c :: rest)]
            rw [hd]
          · have hc : isNameChar c = true := isNameStart_isNameChar c hs
            have htk : (c :: rest).takeWhile isNameChar = c :: rest.takeWhile isNameChar := by
              simp [List.takeWhile_cons, hc]
            rw [htk]
            simp only [isEnvName, Bool.and_eq_true]
            exact ⟨hs, List.all_eq_true.mpr (fun x hx => List.mem_takeWhile_imp hx)⟩
        · rw [if_neg heq] at h2
          simp at h2
    · rw [if_neg hs] at h; simp at h

theorem matchAssign_construct (n v : List Char) (h : isEnvName n = true) :
    matchAssign (n ++ '=' :: v) = some (n, v) := by
  have hall := isEnvName_all n h
  have heqc : isNameChar '=' = false := by decide
  cases n with
  | nil => simp [isEnvName] at h
  | cons c rest =>
    have hdw : ((c :: rest) ++ '=' :: v).dropWhile isNameChar = '=' :: v :=
      dropWhile_append_all _ _ _ _ hall heqc
    have htw : ((c :: rest) ++ '=' :: v).takeWhile isNameChar = c :: rest :=
      takeWhile_append_all _ _ _ _ hall heqc
    have hstart : isNameStart c = true := by
      simp only [isEnvName, Bool.and_eq_true] at h
      exact h.1
    show (if isNameStart c then
        match ((c :: rest) ++ '=' :: v).dropWhile isNameChar with
        | d :: value =>
          if d = '=' then some (((c :: rest) ++ '=' :: v).takeWhile isNameChar, value) else none
        | [] => none
      else none) = some (c :: rest, v)
    rw [if_pos hstart, hdw, htw]
    simp

theorem processLines_pointwise (patches : List PatchConfig) (context : PatchContext)
    (L L2 : List (List Char)) (h : processLines patches context L = .ok L2) :
    L2.length = L.length ∧
      ∀ i l, L.get? i = some l →
        ∃ l2, L2.get? i = some l2 ∧ processLine patches context l = .ok l2 := by
  induction L generalizing L2 with
  | nil =>
    simp only [processLines] at h
    obtain rfl : ([] : List (List Char)) = L2 := by simpa using h
    exact ⟨rfl, fun i l hl => by simp at hl⟩
  | cons l rest ih =>
    simp only [processLines] at h
    cases hp : processLine patches context l with
    | error e => rw [hp] at h; exact absurd h (by simp)
    | ok l2 =>
      rw [hp] at h
      cases hr : processLines patches context rest with
      | error e => rw [hr] at h; exact absurd h (by simp)
      | ok rest2 =>
        rw [hr] at h
        obtain rfl : l2 :: rest2 = L2 := by simpa using h
        obtain ⟨ihlen, ihpt⟩ := ih rest2 hr
        refine ⟨by simp [ihlen], ?_⟩
        intro i x hx
        cases i with
        | zero =>
          obtain rfl : l = x := by simpa using hx
          exact ⟨l2, rfl, hp⟩
        | succ j =>
          simp only [List.get?_cons_succ] at hx ⊢
          exact ihpt j x hx

theorem processLines_of_stable (patches : List PatchConfig) (context : PatchContext)
    (L : List (List Char)) (h : ∀ l ∈ L, processLine patches context l = .ok l) :
    processLines patches context L = .ok L := by
  induction L with
  | nil => rfl
  | cons l rest ih =>
    simp only [processLines]
    rw [h l (List.mem_cons_self _ _), ih (fun x hx => h x (List.mem_cons_of_mem _ hx))]

/-- The tail-or-id step of `stripQuotes` (leading quote removal). -/
def stripLead (v : List Char) : List Char :=
  match v with
  | c :: rest => if isQuoteCh c then rest else v
  | [] => v

/-- The dropLast-or-id step of `stripQuotes` (trailing quote removal). -/
def stripTrail (t : List Char) : List Char :=
  match t.getLast? with
  | some c => if isQuoteCh c then t.dropLast else t
  | none => t

theorem stripQuotes_eq (v : List Char) : stripQuotes v = stripTrail (stripLead v) := rfl

theorem mem_stripLead (v : List Char) (c : Char) (h : c ∈ stripLead v) : c ∈ v := by
  cases v with
  | nil => exact h
  | cons x rest =>
    have h2 : c ∈ (if isQuoteCh x then rest else x :: rest) := h
    by_cases hq : isQuoteCh x = true
    · rw [if_pos hq] at h2
      exact List.mem_cons_of_mem _ h2
    · rw [if_neg hq] at h2
      exact h2

theorem mem_stripTrail (t : List Char) (c : Char) (h : c ∈ stripTrail t) : c ∈ t := by
  unfold stripTrail at h
  cases hl : t.getLast? with
  | none => rw [hl] at h; exact h
  | some d =>
    rw [hl] at h
    have h2 : c ∈ (if isQuoteCh d then t.dropLast else t) := h
    by_cases hq : isQuoteCh d = true
    · rw [if_pos hq] at h2
      exact List.dropLast_subset t h2
    · rw [if_neg hq] at h2
      exact h2

theorem mem_stripQuotes (v : List Char) (c : Char) (h : c ∈ stripQuotes v) : c ∈ v := by
  rw [stripQuotes_eq] at h
  exact mem_stripLead v c (mem_stripTrail _ c h)

theorem mem_replaceDbSegment (v db : List Char) (c : Char)
    (h : c ∈ replaceDbSegment v db) : c ∈ v ∨ c = '/' ∨ c ∈ db := by
  induction v with
  | nil => simp [replaceDbSegment] at h
  | cons x rest ih =>
    simp only [replaceDbSegment] at h
    by_cases hx : x = '/'
    · rw [if_pos hx] at h
      by_cases hcond : rest.takeWhile notSep ≠ [] ∧
          (rest.dropWhile notSep = [] ∨ (rest.dropWhile notSep).head? = some '?')
      · rw [if_pos hcond] at h
        rcases List.mem_cons.mp h with rfl | h2
        · exact Or.inr (Or.inl rfl)
        · rcases List.mem_append.mp h2 with h3 | h3
          · exact Or.inr (Or.inr h3)
          · exact Or.inl (List.mem_cons_of_mem _ (List.dropWhile_subset _ h3))
      · rw [if_neg hcond] at h
        rcases List.mem_cons.mp h with rfl | h2
        · exact Or.inl (List.mem_cons_self _ _)
        · rcases ih h2 with h3 | h3
          · exact Or.inl (List.mem_cons_of_mem _ h3)
          · exact Or.inr h3
    · rw [if_neg hx] at h
      rcases List.mem_cons.mp h with rfl | h2
      · exact Or.inl (List.mem_cons_self _ _)
      · rcases ih h2 with h3 | h3
        · exact Or.inl (List.mem_cons_of_mem _ h3)
        · exact Or.inr h3

theorem mem_replacePortColon (v pd : List Char) (c : Char)
    (h : c ∈ replacePortColon v pd) : c ∈ v ∨ c = ':' ∨ c ∈ pd := by
  induction v with
  | nil => simp [replacePortColon] at h
  | cons x rest ih =>
    simp only [replacePortColon] at h
    by_cases hcond : x = ':' ∧ headIsDigit rest = true
    · rw [if_pos hcond] at h
      rcases List.mem_cons.mp h with rfl | h2
      · exact Or.inr (Or.inl rfl)
      · rcases List.mem_append.mp h2 with h3 | h3
        · exact Or.inr (Or.inr h3)
        · exact Or.inl (List.mem_cons_of_mem _ (List.dropWhile_subset _ h3))
    · rw [if_neg hcond] at h
      rcases List.mem_cons.mp h with rfl | h2
      · exact Or.inl (List.mem_cons_self _ _)
      · rcases ih h2 with h3 | h3
        · exact Or.inl (List.mem_cons_of_mem _ h3)
        · exact Or.inr h3

theorem mem_patchRedisUrl (u : List Char) (redisDb : Nat) (c : Char)
    (h : c ∈ patchRedisUrl u redisDb) : c ∈ u ∨ c = '/' ∨ c ∈ natToChars redisDb := by
  unfold patchRedisUrl at h
  by_cases hcond : u.reverse.takeWhile isDigitCh ≠ [] ∧
      (u.reverse.drop (u.reverse.takeWhile isDigitCh).length).head? = some '/'
  · rw [if_pos hcond] at h
    rcases List.mem_append.mp h with h2 | h2
    · refine Or.inl ?_
      have hrev : c ∈ u.reverse := List.drop_subset _ _ (List.mem_reverse.mp h2)
      exact List.mem_reverse.mp (by simpa using hrev)
    · rcases List.mem_cons.mp h2 with rfl | h3
      · exact Or.inr (Or.inl rfl)
      · exact Or.inr (Or.inr h3)
  · rw [if_neg hcond] at h
    rcases List.mem_append.mp h with h2 | h2
    · exact Or.inl h2
    · rcases List.mem_cons.mp h2 with rfl | h3
      · exact Or.inr (Or.inl rfl)
      · exact Or.inr (Or.inr h3)

/-- Character inventory of a successful `applyPatch` result: every character
comes from the input value, the database name, a digit, or a fixed URL
separator. -/
theorem applyPatch_ok_chars (value : List Char) (patch : PatchConfig)
    (context : PatchContext) (w : List Char) (h : applyPatch value patch context = .ok w) :
    ∀ c ∈ w, c ∈ value ∨ c ∈ context.dbName ∨ isDigitCh c = true ∨ c = '/' ∨ c = ':' := by
  intro c hc
  cases hty : patch.type with
  | database =>
    simp only [applyPatch, hty] at h
    obtain rfl : replaceDbSegment value context.dbName = w := by simpa using h
    rcases mem_replaceDbSegment value context.dbName c hc with h2 | h2 | h2
    · exact Or.inl h2
    · exact Or.inr (Or.inr (Or.inr (Or.inl h2)))
    · exact Or.inr (Or.inl h2)
  | redis =>
    simp only [applyPatch, hty] at h
    obtain rfl : patchRedisUrl value context.redisDb = w := by simpa using h
    rcases mem_patchRedisUrl value context.redisDb c hc with h2 | h2 | h2
    · exact Or.inl h2
    · exact Or.inr (Or.inr (Or.inr (Or.inl h2)))
    · exact Or.inr (Or.inr (Or.inl (natToChars_all_digit _ c h2)))
  | port =>
    simp only [applyPatch, hty] at h
    cases hs : patch.service with
    | none => rw [hs] at h; exact absurd h (by simp)
    | some s =>
      rw [hs] at h
      have h2 : (if s = [] then (Except.error portErrorMsg : Except (List Char) (List Char))
          else match jsGet context.ports s with
            | none => .error portErrorMsg
            | some prt => .ok (natToChars prt)) = .ok w := h
      by_cases hsnil : s = []
      · rw [if_pos hsnil] at h2; exact absurd h2 (by simp)
      · rw [if_neg hsnil] at h2
        cases hg : jsGet context.ports s with
        | none => rw [hg] at h2; exact absurd h2 (by simp)
        | some prt =>
          rw [hg] at h2
          obtain rfl : natToChars prt = w := by simpa using h2
          exact Or.inr (Or.inr (Or.inl (natToChars_all_digit _ c hc)))
  | url =>
    simp only [applyPatch, hty] at h
    cases hs : patch.service with
    | none => rw [hs] at h; exact absurd h (by simp)
    | some s =>
      rw [hs] at h
      have h2 : (if s = [] then (Except.error urlErrorMsg : Except (List Char) (List Char))
          else match jsGet context.ports s with
            | none => .error urlErrorMsg
            | some prt => .ok (replacePortColon value (natToChars prt))) = .ok w := h
      by_cases hsnil : s = []
      · rw [if_pos hsnil] at h2; exact absurd h2 (by simp)
      · rw [if_neg hsnil] at h2
        cases hg : jsGet context.ports s with
        | none => rw [hg] at h2; exact absurd h2 (by simp)
        | some prt =>
          rw [hg] at h2
          obtain rfl : replacePortColon value (natToChars prt) = w := by simpa using h2
          rcases mem_replacePortColon value (natToChars prt) c hc with h3 | h3 | h3
          · exact Or.inl h3
          · exact Or.inr (Or.inr (Or.inr (Or.inr h3)))
          · exact Or.inr (Or.inr (Or.inl (natToChars_all_digit _ c h3)))

/-- Inversion of `processLine`: either the line passes through verbatim (no
assignment match or no registered rule), or it is rebuilt from the rule's
transform of the unquoted value. -/
theorem processLine_ok_cases (patches : List PatchConfig) (context : PatchContext)
    (l l2 : List Char) (h : processLine patches context l = .ok l2) :
    ((matchAssign l = none ∨
        ∃ n raw, matchAssign l = some (n, raw) ∧ lookupPatch patches n = none) ∧ l2 = l) ∨
    (∃ n raw patch w, matchAssign l = some (n, raw) ∧ lookupPatch patches n = some patch ∧
      applyPatch (stripQuotes raw) patch context = .ok w ∧
      l2 = n ++ '=' :: (quoteOf raw ++ w ++ quoteOf raw)) := by
  unfold processLine at h
  cases hm : matchAssign l with
  | none =>
    rw [hm] at h
    obtain rfl : l = l2 := by simpa using h
    exact Or.inl ⟨Or.inl rfl, rfl⟩
  | some nr =>
    obtain ⟨n, raw⟩ := nr
    rw [hm] at h
    have h2 : (match lookupPatch patches n with
      | none => Except.ok l
      | some patch =>
        match applyPatch (stripQuotes raw) patch context with
        | .error e => .error e
        | .ok patched =>
          .ok (n ++ '=' :: (quoteOf raw ++ patched ++ quoteOf raw))) = .ok l2 := h
    cases hl : lookupPatch patches n with
    | none =>
      rw [hl] at h2
      obtain rfl : l = l2 := by simpa using h2
      exact Or.inl ⟨Or.inr ⟨n, raw, rfl, hl⟩, rfl⟩
    | some patch =>
      rw [hl] at h2
      have h3 : (match applyPatch (stripQuotes raw) patch context with
        | .error e => Except.error e
        | .ok patched =>
          Except.ok (n ++ '=' :: (quoteOf raw ++ patched ++ quoteOf raw))) = .ok l2 := h2
      cases hap : applyPatch (stripQuotes raw) patch context with
      | error e => rw [hap] at h3; exact absurd h3 (by simp)
      | ok w =>
        rw [hap] at h3
        obtain rfl : n ++ '=' :: (quoteOf raw ++ w ++ quoteOf raw) = l2 := by simpa using h3
        exact Or.inr ⟨n, raw, patch, w, rfl, hl, hap, rfl⟩

theorem quoteOf_cases (v : List Char) :
    quoteOf v = [] ∨ quoteOf v = [dquote] ∨ quoteOf v = [squote] := by
  cases v with
  | nil => exact Or.inl rfl
  | cons c rest =>
    by_cases h1 : c = dquote
    · right; left; subst h1; simp [quoteOf]
    · by_cases h2 : c = squote
      · right; right
        subst h2
        have hne : ¬ (squote = dquote) := by decide
        simp [quoteOf, hne]
      · left; simp [quoteOf, h1, h2]

theorem processLine_no_newline (patches : List PatchConfig) (context : PatchContext)
    (l l2 : List Char) (hl : '\n' ∉ l) (hdb : '\n' ∉ context.dbName)
    (h : processLine patches context l = .ok l2) : '\n' ∉ l2 := by
  rcases processLine_ok_cases patches context l l2 h with ⟨_, rfl⟩ | hcase
  · exact hl
  · obtain ⟨n, raw, patch, w, hm, hlk, hap, rfl⟩ := hcase
    obtain ⟨hsplit, _⟩ := matchAssign_some l n raw hm
    intro hmem
    have hq : '\n' ∉ quoteOf raw := by
      rcases quoteOf_cases raw with hq | hq | hq <;> rw [hq] <;> simp <;> decide
    rcases List.mem_append.mp hmem with h2 | h2
    · exact hl (hsplit ▸ List.mem_append_left _ h2)
    · rcases List.mem_cons.mp h2 with heq | h3
      · exact absurd heq (by decide)
      · rcases List.mem_append.mp h3 with h4 | h4
        · rcases List.mem_append.mp h4 with h5 | h5
          · exact hq h5
          · rcases applyPatch_ok_chars _ _ _ _ hap '\n' h5 with h6 | h6 | h6 | h6 | h6
            · exact hl (hsplit ▸ List.mem_append_right _
                (List.mem_cons_of_mem _ (mem_stripQuotes raw '\n' h6)))
            · exact hdb h6
            · exact absurd h6 (by decide)
            · exact absurd h6 (by decide)
            · exact absurd h6 (by decide)
        · exact hq h4

/-- Inversion of `patchEnvContent`. -/
theorem patchEnvContent_ok (content : List Char) (patches : List PatchConfig)
    (context : PatchContext) (o : List Char)
    (h : patchEnvContent content patches context = .ok o) :
    ∃ lines2, processLines patches context (splitNl content) = .ok lines2 ∧
      o = joinNl (lines2 ++ appendedLines patches (foundVars patches (splitNl content)) context) := by
  unfold patchEnvContent at h
  cases hp : processLines patches context (splitNl content) with
  | error e => rw [hp] at h; exact absurd h (by simp)
  | ok lines2 =>
    rw [hp] at h
    exact ⟨lines2, rfl, by simpa using h.symm⟩

theorem processLines_no_newline (patches : List PatchConfig) (context : PatchContext)
    (L L2 : List (List Char)) (hdb : '\n' ∉ context.dbName) (hL : ∀ l ∈ L, '\n' ∉ l)
    (h : processLines patches context L = .ok L2) : ∀ s ∈ L2, '\n' ∉ s := by
  induction L generalizing L2 with
  | nil =>
    simp only [processLines] at h
    obtain rfl : ([] : List (List Char)) = L2 := by simpa using h
    simp
  | cons l rest ih =>
    simp only [processLines] at h
    cases hp : processLine patches context l with
    | error e => rw [hp] at h; exact absurd h (by simp)
    | ok l2 =>
      rw [hp] at h
      cases hr : processLines patches context rest with
      | error e => rw [hr] at h; exact absurd h (by simp)
      | ok rest2 =>
        rw [hr] at h
        obtain rfl : l2 :: rest2 = L2 := by simpa using h
        intro s hs
        rcases List.mem_cons.mp hs with rfl | hs2
        · exact processLine_no_newline patches context l s
            (hL l (List.mem_cons_self _ _)) hdb hp
        · exact ih rest2 (fun x hx => hL x (List.mem_cons_of_mem _ hx)) hr s hs2

/-- A line is untouched by the patcher: it is not an assignment, or its
variable has no registered rule. -/
def untouchedLine (patches : List PatchConfig) (l : List Char) : Prop :=
  matchAssign l = none ∨
    ∃ n raw, matchAssign l = some (n, raw) ∧ lookupPatch patches n = none

theorem processLine_untouched (patches : List PatchConfig) (context : PatchContext)
    (l : List Char) (h : untouchedLine patches l) :
    processLine patches context l = .ok l := by
  unfold processLine
  rcases h with hm | ⟨n, raw, hm, hlk⟩
  · rw [hm]
  · rw [hm]
    show (match lookupPatch patches n with
      | none => Except.ok l
      | some patch =>
        match applyPatch (stripQuotes raw) patch context with
        | .error e => .error e
        | .ok patched =>
          .ok (n ++ '=' :: (quoteOf raw ++ patched ++ quoteOf raw))) = Except.ok l
    rw [hlk]

/-- C4: every line of the source that is not a rule-matched assignment —
comments, blanks, malformed assignments, and assignments without a registered
rule — appears verbatim in the output at its original line index.  (The
context's database name is assumed newline-free; values are single-line by
the dotenv format.) -/
theorem patchEnvContent_frame (content o : List Char) (patches : List PatchConfig)
    (context : PatchContext) (hdb : '\n' ∉ context.dbName)
    (h : patchEnvContent content patches context = .ok o) :
    ∀ i l, (splitNl content).get? i = some l → untouchedLine patches l →
      (splitNl o).get? i = some l := by
  obtain ⟨lines2, hpl, rfl⟩ := patchEnvContent_ok content patches context _ h
  intro i l hget huntouched
  obtain ⟨hlen, hpt⟩ := processLines_pointwise patches context _ _ hpl
  obtain ⟨l2, hget2, hproc⟩ := hpt i l hget
  obtain rfl : l2 = l := by
    rw [processLine_untouched patches context l huntouched] at hproc
    exact (Except.ok.inj hproc).symm
  have hnl2 : ∀ s ∈ lines2, '\n' ∉ s :=
    processLines_no_newline patches context _ _ hdb (splitNl_no_newline content) hpl
  obtain ⟨T, hT⟩ := splitNl_joinNl_append lines2
    (appendedLines patches (foundVars patches (splitNl content)) context) hnl2
  rw [hT]
  have hi : i < lines2.length := by
    have := List.get?_eq_some.mp hget2
    exact this.1
  rw [List.get?_append hi]
  exact hget2

/-- C4 witness: in the multi-line example, the comment line at index 1 is
preserved verbatim at index 1 of the output. -/
theorem patchEnvContent_frame_witness :
    (splitNl ("PORT=3301\n# A comment".toList)).get? 1 = some "# A comment".toList :=
  patchEnvContent_frame "PORT=3001\n# A comment".toList "PORT=3301\n# A comment".toList
    [⟨"PORT".toList, .port, some "server".toList⟩]
    ⟨"db".toList, 3, [("server".toList, 3301)]⟩
    (by decide) (by rfl) 1 "# A comment".toList (by rfl) (Or.inl (by rfl))

theorem processLine_matched (patches : List PatchConfig) (context : PatchContext)
    (l n raw : List Char) (patch : PatchConfig) (w : List Char)
    (hm : matchAssign l = some (n, raw)) (hlk : lookupPatch patches n = some patch)
    (hap : applyPatch (stripQuotes raw) patch context = .ok w) :
    processLine patches context l = .ok (n ++ '=' :: (quoteOf raw ++ w ++ quoteOf raw)) := by
  unfold processLine
  rw [hm]
  show (match lookupPatch patches n with
    | none => Except.ok l
    | some patch =>
      match applyPatch (stripQuotes raw) patch context with
      | .error e => .error e
      | .ok patched =>
        .ok (n ++ '=' :: (quoteOf raw ++ patched ++ quoteOf raw))) = _
  rw [hlk]
  show (match applyPatch (stripQuotes raw) patch context with
    | .error e => Except.error e
    | .ok patched =>
      Except.ok (n ++ '=' :: (quoteOf raw ++ patched ++ quoteOf raw))) = _
  rw [hap]

/-- C7: on an assignment line with a registered rule, the patcher strips one
layer of surrounding quotes from the raw value, applies the rule's transform
to the unquoted value, and re-wraps the result in the same quote character
(none when the value was unquoted); the rebuilt line replaces the original at
its line index. -/
theorem patchEnvContent_quotes (content o : List Char) (patches : List PatchConfig)
    (context : PatchContext) (i : Nat) (l n raw : List Char) (patch : PatchConfig)
    (w : List Char) (hdb : '\n' ∉ context.dbName)
    (h : patchEnvContent content patches context = .ok o)
    (hget : (splitNl content).get? i = some l)
    (hm : matchAssign l = some (n, raw))
    (hlk : lookupPatch patches n = some patch)
    (hap : applyPatch (stripQuotes raw) patch context = .ok w) :
    (splitNl o).get? i = some (n ++ '=' :: (quoteOf raw ++ w ++ quoteOf raw)) := by
  obtain ⟨lines2, hpl, rfl⟩ := patchEnvContent_ok content patches context _ h
  obtain ⟨hlen, hpt⟩ := processLines_pointwise patches context _ _ hpl
  obtain ⟨l2, hget2, hproc⟩ := hpt i l hget
  obtain rfl : l2 = n ++ '=' :: (quoteOf raw ++ w ++ quoteOf raw) := by
    rw [processLine_matched patches context l n raw patch w hm hlk hap] at hproc
    exact (Except.ok.inj hproc).symm
  have hnl2 : ∀ s ∈ lines2, '\n' ∉ s :=
    processLines_no_newline patches context _ _ hdb (splitNl_no_newline content) hpl
  obtain ⟨T, hT⟩ := splitNl_joinNl_append lines2
    (appendedLines patches (foundVars patches (splitNl content)) context) hnl2
  rw [hT]
  have hi : i < lines2.length := (List.get?_eq_some.mp hget2).1
  rw [List.get?_append hi]
  exact hget2

/-- C7 witness: the single-quoted value `PORT='3001'` is unquoted, replaced by
the resolved port, and re-wrapped in the same single quotes. -/
theorem patchEnvContent_quotes_witness :
    (splitNl ("PORT=".toList ++ squote :: "3301".toList ++ [squote])).get? 0 =
      some ("PORT".toList ++ '=' :: ([squote] ++ "3301".toList ++ [squote])) :=
  patchEnvContent_quotes ("PORT=".toList ++ squote :: "3001".toList ++ [squote])
    ("PORT=".toList ++ squote :: "3301".toList ++ [squote])
    [⟨"PORT".toList, .port, some "server".toList⟩]
    ⟨"db".toList, 3, [("server".toList, 3301)]⟩
    0 ("PORT=".toList ++ squote :: "3001".toList ++ [squote]) "PORT".toList
    (squote :: "3001".toList ++ [squote])
    ⟨"PORT".toList, .port, some "server".toList⟩ "3301".toList
    (by decide) (by rfl) (by rfl) (by rfl) (by rfl) (by rfl)

theorem mem_appendedLines (patches : List PatchConfig) (found : List (List Char))
    (context : PatchContext) (l2 : List Char) (h : l2 ∈ appendedLines patches found context) :
    ∃ q ∈ patches, found.contains q.var = false ∧ q.type = PatchType.port ∧
      ∃ s2 prt2, q.service = some s2 ∧ s2 ≠ [] ∧ jsGet context.ports s2 = some prt2 ∧
        l2 = q.var ++ '=' :: natToChars prt2 := by
  obtain ⟨q, hq, heq⟩ := List.mem_filterMap.mp h
  obtain ⟨qvar, qty, qsvc⟩ := q
  by_cases hc : found.contains qvar = true
  · exfalso
    simp only [hc] at heq
    exact absurd heq (by simp)
  · have hc2 : found.contains qvar = false := by simpa using hc
    simp only [hc2] at heq
    rw [if_neg (by simp : ¬ (false = true))] at heq
    cases qty with
    | port =>
      cases qsvc with
      | none => exact absurd heq (by simp)
      | some s =>
        have heq3 : (if s = [] then none
            else match jsGet context.ports s with
              | some prt => some (qvar ++ '=' :: natToChars prt)
              | none => none) = some l2 := heq
        by_cases hs0 : s = []
        · rw [if_pos hs0] at heq3; exact absurd heq3 (by simp)
        · rw [if_neg hs0] at heq3
          cases hg : jsGet context.ports s with
          | none => rw [hg] at heq3; exact absurd heq3 (by simp)
          | some prt =>
            rw [hg] at heq3
            obtain rfl : qvar ++ '=' :: natToChars prt = l2 := by simpa using heq3
            exact ⟨⟨qvar, .port, some s⟩, hq, hc2, rfl, s, prt, rfl, hs0, hg, rfl⟩
    | database => exact absurd heq (by simp)
    | redis => exact absurd heq (by simp)
    | url => exact absurd heq (by simp)

theorem mem_foundVars (patches : List PatchConfig) (L : List (List Char)) (n : List Char)
    (h : n ∈ foundVars patches L) :
    ∃ l ∈ L, ∃ raw, matchAssign l = some (n, raw) := by
  obtain ⟨l, hl, heq⟩ := List.mem_filterMap.mp h
  unfold foundEntry at heq
  cases hm : matchAssign l with
  | none => rw [hm] at heq; exact absurd heq (by simp)
  | some nr =>
    obtain ⟨n2, raw⟩ := nr
    rw [hm] at heq
    have heq2 : (if (lookupPatch patches n2).isSome then some n2 else none) = some n := heq
    by_cases hlk : (lookupPatch patches n2).isSome = true
    · rw [if_pos hlk] at heq2
      obtain rfl : n2 = n := by simpa using heq2
      exact ⟨l, hl, raw, hm⟩
    · rw [if_neg hlk] at heq2
      exact absurd heq2 (by simp)

/-- C5: a `port`-type rule whose (resolvable) service is in the port map and
whose variable never appears as an assignment line in the source gets a new
`NAME=value` line with the resolved port appended after all source lines; and
every appended line comes from such a `port`-type rule — `database`, `redis`
and `url` rules never synthesize a line for an absent variable. -/
theorem patchEnvContent_append_port (content o : List Char) (patches : List PatchConfig)
    (context : PatchContext) (p : PatchConfig) (s : List Char) (prt : Nat)
    (hdb : '\n' ∉ context.dbName) (hvars : ∀ q ∈ patches, '\n' ∉ q.var)
    (hp : p ∈ patches) (hty : p.type = PatchType.port) (hs : p.service = some s)
    (hs0 : s ≠ []) (hres : jsGet context.ports s = some prt)
    (habs : ∀ l ∈ splitNl content, ∀ raw, matchAssign l ≠ some (p.var, raw))
    (h : patchEnvContent content patches context = .ok o) :
    ∃ pre app, splitNl o = pre ++ app ∧ pre.length = (splitNl content).length ∧
      (p.var ++ '=' :: natToChars prt) ∈ app ∧
      ∀ l2 ∈ app, ∃ q ∈ patches, q.type = PatchType.port ∧
        ∃ s2 prt2, q.service = some s2 ∧ jsGet context.ports s2 = some prt2 ∧
          l2 = q.var ++ '=' :: natToChars prt2 := by
  obtain ⟨lines2, hpl, rfl⟩ := patchEnvContent_ok content patches context _ h
  obtain ⟨hlen, _⟩ := processLines_pointwise patches context _ _ hpl
  have hnl2 : ∀ x ∈ lines2, '\n' ∉ x :=
    processLines_no_newline patches context _ _ hdb (splitNl_no_newline content) hpl
  have hnlapp : ∀ x ∈ appendedLines patches (foundVars patches (splitNl content)) context,
      '\n' ∉ x := by
    intro x hx
    obtain ⟨q, hq, _, _, s2, prt2, _, _, _, rfl⟩ := mem_appendedLines _ _ _ _ hx
    intro hmem
    rcases List.mem_append.mp hmem with h2 | h2
    · exact hvars q hq h2
    · rcases List.mem_cons.mp h2 with heq | h3
      · exact absurd heq (by decide)
      · exact absurd (natToChars_all_digit _ _ h3) (by decide)
  have hne : lines2 ++ appendedLines patches (foundVars patches (splitNl content)) context ≠
      [] := by
    intro hnil
    obtain ⟨h1, _⟩ := List.append_eq_nil.mp hnil
    have hlen0 : (splitNl content).length = 0 := by rw [← hlen, h1]; rfl
    exact splitNl_ne_nil content (List.length_eq_zero.mp hlen0)
  have hsplit : splitNl (joinNl (lines2 ++
      appendedLines patches (foundVars patches (splitNl content)) context)) =
      lines2 ++ appendedLines patches (foundVars patches (splitNl content)) context := by
    refine splitNl_joinNl _ ?_ hne
    intro x hx
    rcases List.mem_append.mp hx with h2 | h2
    · exact hnl2 x h2
    · exact hnlapp x h2
  refine ⟨lines2, appendedLines patches (foundVars patches (splitNl content)) context,
    hsplit, hlen, ?_, ?_⟩
  · have hfound : (foundVars patches (splitNl content)).contains p.var = false := by
      by_contra hcon
      have hcon2 : (foundVars patches (splitNl content)).contains p.var = true := by
        simpa using hcon
      have hmemf : p.var ∈ foundVars patches (splitNl content) := by
        obtain ⟨a, ha, hbeq⟩ := List.contains_iff_exists_mem_beq.mp hcon2
        obtain rfl : p.var = a := by simpa using hbeq
        exact ha
      obtain ⟨l, hl, raw, hm⟩ := mem_foundVars patches _ _ hmemf
      exact habs l hl raw hm
    refine List.mem_filterMap.mpr ⟨p, hp, ?_⟩
    obtain ⟨pvar, pty, psvc⟩ := p
    simp only at hty hs
    subst hty
    subst hs
    simp only [hfound]
    rw [if_neg (by simp [hfound]), if_neg hs0, hres]
  · intro l2 hl2
    obtain ⟨q, hq, _, hqty, s2, prt2, hqs, _, hg, rfl⟩ := mem_appendedLines _ _ _ _ hl2
    exact ⟨q, hq, hqty, s2, prt2, hqs, hg, rfl⟩

/-- C5 witness: the missing `PORT` variable gets `PORT=3301` appended after the
two source lines. -/
theorem patchEnvContent_append_port_witness :
    ∃ pre app, splitNl "SOME_VAR=hello\nPORT=3301".toList = pre ++ app ∧
      pre.length = (splitNl "SOME_VAR=hello".toList).length ∧
      ("PORT".toList ++ '=' :: natToChars 3301) ∈ app ∧
      ∀ l2 ∈ app, ∃ q ∈ [(⟨"PORT".toList, PatchType.port, some "server".toList⟩ : PatchConfig)],
        q.type = PatchType.port ∧
        ∃ s2 prt2, q.service = some s2 ∧
          jsGet (PatchContext.ports ⟨"db".toList, 3, [("server".toList, 3301)]⟩) s2 =
            some prt2 ∧ l2 = q.var ++ '=' :: natToChars prt2 :=
  patchEnvContent_append_port "SOME_VAR=hello".toList "SOME_VAR=hello\nPORT=3301".toList
    [⟨"PORT".toList, .port, some "server".toList⟩]
    ⟨"db".toList, 3, [("server".toList, 3301)]⟩
    ⟨"PORT".toList, .port, some "server".toList⟩ "server".toList 3301
    (by decide) (by decide) (by simp) (by rfl) (by rfl) (by decide) (by rfl)
    (by
      intro l hl raw hcon
      have hsp : splitNl "SOME_VAR=hello".toList = ["SOME_VAR=hello".toList] := by rfl
      rw [hsp, List.mem_singleton] at hl
      subst hl
      have h2 : matchAssign "SOME_VAR=hello".toList =
          some ("SOME_VAR".toList, "hello".toList) := by rfl
      rw [h2] at hcon
      have hfst := congrArg Prod.fst (Option.some.inj hcon)
      have hfst2 : "SOME_VAR".toList = "PORT".toList := by simpa using hfst
      exact absurd hfst2 (by decide))
    (by rfl)

/-! ### Idempotence of the patcher -/

/-- The first character, if any, is not a quote character. -/
def headNotQuote (v : List Char) : Bool :=
  match v with
  | c :: _ => !isQuoteCh c
  | [] => true

/-- The last character, if any, is not a quote character. -/
def noTrailQuote (v : List Char) : Bool :=
  match v.getLast? with
  | some c => !isQuoteCh c
  | none => true

/-- Well-behavedness of one content line for idempotent re-patching: on an
assignment line with a registered rule whose raw value is unquoted, the value
must not still end in a quote character after the single trailing-quote
strip.  (An unquoted value ending in two quote characters loses one quote per
pass, which is the one way reapplication can differ.) -/
def lineSafe (patches : List PatchConfig) (l : List Char) : Bool :=
  match matchAssign l with
  | some (n, raw) =>
    if (lookupPatch patches n).isSome && (quoteOf raw).isEmpty then
      noTrailQuote (stripQuotes raw)
    else true
  | none => true

theorem digit_not_quote (c : Char) (h : isDigitCh c = true) : isQuoteCh c = false := by
  unfold isQuoteCh
  by_cases h1 : c = dquote
  · subst h1; exact absurd h (by decide)
  · by_cases h2 : c = squote
    · subst h2; exact absurd h (by decide)
    · simp [h1, h2]

theorem quoteOf_of_headNotQuote (v : List Char) (h : headNotQuote v = true) :
    quoteOf v = [] := by
  cases v with
  | nil => rfl
  | cons c rest =>
    have hq : isQuoteCh c = false := by simpa [headNotQuote] using h
    unfold isQuoteCh at hq
    simp only [Bool.or_eq_false_iff, beq_eq_false_iff_ne] at hq
    simp [quoteOf, hq.1, hq.2]

theorem headNotQuote_of_quoteOf_nil (v : List Char) (h : quoteOf v = []) :
    headNotQuote v = true := by
  cases v with
  | nil => rfl
  | cons c rest =>
    simp only [quoteOf] at h
    by_cases h1 : c = dquote
    · subst h1; simp at h
    · by_cases h2 : c = squote
      · subst h2
        rw [if_neg (by decide : ¬ (squote = dquote))] at h
        exact absurd h (by simp)
      · simp only [headNotQuote, Bool.not_eq_true']
        unfold isQuoteCh
        simp [h1, h2]

theorem stripLead_id (v : List Char) (h : headNotQuote v = true) : stripLead v = v := by
  cases v with
  | nil => rfl
  | cons c rest =>
    have hq : isQuoteCh c = false := by simpa [headNotQuote] using h
    simp [stripLead, hq]

theorem stripTrail_id (v : List Char) (h : noTrailQuote v = true) : stripTrail v = v := by
  unfold stripTrail
  unfold noTrailQuote at h
  cases hl : v.getLast? with
  | none => rfl
  | some c =>
    rw [hl] at h
    have hq : isQuoteCh c = false := by simpa using h
    simp [hq]

theorem stripQuotes_id (v : List Char) (h1 : headNotQuote v = true)
    (h2 : noTrailQuote v = true) : stripQuotes v = v := by
  rw [stripQuotes_eq, stripLead_id v h1, stripTrail_id v h2]

theorem stripQuotes_wrapped (q : Char) (w : List Char) (hq : isQuoteCh q = true) :
    stripQuotes (q :: (w ++ [q])) = w := by
  rw [stripQuotes_eq]
  have h1 : stripLead (q :: (w ++ [q])) = w ++ [q] := by simp [stripLead, hq]
  rw [h1]
  unfold stripTrail
  have h2 : (w ++ [q]).getLast? = some q := by
    rw [List.getLast?_append_of_ne_nil w (by simp)]
    rfl
  rw [h2]
  simp [hq, List.dropLast_concat]

theorem quoteOf_wrapped (q : Char) (w : List Char) (hq : q = dquote ∨ q = squote) :
    quoteOf (q :: (w ++ [q])) = [q] := by
  rcases hq with rfl | rfl
  · simp [quoteOf]
  · have hne : ¬ (squote = dquote) := by decide
    simp [quoteOf, hne]

theorem headNotQuote_stripLead_of_quoteOf_nil (v : List Char) (h : quoteOf v = []) :
    headNotQuote (stripLead v) = true := by
  have hh := headNotQuote_of_quoteOf_nil v h
  rw [stripLead_id v hh]
  exact hh

theorem headNotQuote_stripTrail (t : List Char) (h : headNotQuote t = true) :
    headNotQuote (stripTrail t) = true := by
  unfold stripTrail
  cases hl : t.getLast? with
  | none => exact h
  | some c =>
    show headNotQuote (if isQuoteCh c then t.dropLast else t) = true
    by_cases hq : isQuoteCh c = true
    · rw [if_pos hq]
      cases t with
      | nil => rfl
      | cons a rest =>
        cases rest with
        | nil => rfl
        | cons b rest2 =>
          have hd : (a :: b :: rest2).dropLast = a :: (b :: rest2).dropLast := rfl
          rw [hd]
          simpa [headNotQuote] using h
    · rw [if_neg hq]
      exact h

theorem headNotQuote_stripQuotes (v : List Char) (h : quoteOf v = []) :
    headNotQuote (stripQuotes v) = true := by
  rw [stripQuotes_eq]
  exact headNotQuote_stripTrail _ (by
    rw [stripLead_id v (headNotQuote_of_quoteOf_nil v h)]
    exact headNotQuote_of_quoteOf_nil v h)

theorem noTrailQuote_append_digits (u : List Char) (m : Nat) :
    noTrailQuote (u ++ '/' :: natToChars m) = true := by
  unfold noTrailQuote
  have h1 : (u ++ '/' :: natToChars m).getLast? = ('/' :: natToChars m).getLast? :=
    List.getLast?_append_of_ne_nil u (by simp)
  have h2 : ('/' :: natToChars m).getLast? = (natToChars m).getLast? := by
    rw [show ('/' :: natToChars m) = ['/'] ++ natToChars m from rfl]
    exact List.getLast?_append_of_ne_nil _ (natToChars_ne_nil m)
  rw [h1, h2]
  cases hl : (natToChars m).getLast? with
  | none => rfl
  | some c =>
    have hc : c ∈ natToChars m := List.mem_of_mem_getLast? (by simp [hl])
    show (!isQuoteCh c) = true
    simp [digit_not_quote c (natToChars_all_digit m c hc)]

theorem noTrailQuote_digits (m : Nat) : noTrailQuote (natToChars m) = true := by
  unfold noTrailQuote
  cases hl : (natToChars m).getLast? with
  | none => rfl
  | some c =>
    have hc : c ∈ natToChars m := List.mem_of_mem_getLast? (by simp [hl])
    show (!isQuoteCh c) = true
    simp [digit_not_quote c (natToChars_all_digit m c hc)]

theorem headNotQuote_digits (m : Nat) : headNotQuote (natToChars m) = true := by
  cases hl : natToChars m with
  | nil => rfl
  | cons c rest =>
    have hc : c ∈ natToChars m := by rw [hl]; exact List.mem_cons_self _ _
    simp [headNotQuote, digit_not_quote c (natToChars_all_digit m c hc)]

theorem dropWhile_append_sat (l1 l2 : List Char) (p : Char → Bool)
    (h : ∀ c ∈ l1, p c = true) : (l1 ++ l2).dropWhile p = l2.dropWhile p := by
  induction l1 with
  | nil => rfl
  | cons c rest ih =>
    have hc : p c = true := h c (List.mem_cons_self _ _)
    simp only [List.cons_append, List.dropWhile_cons, hc, if_true]
    exact ih (fun x hx => h x (List.mem_cons_of_mem _ hx))

theorem dropWhile_idem (l : List Char) (p : Char → Bool) :
    (l.dropWhile p).dropWhile p = l.dropWhile p := by
  induction l with
  | nil => rfl
  | cons c rest ih =>
    by_cases hc : p c = true
    · simp only [List.dropWhile_cons, hc, if_true]
      exact ih
    · simp only [List.dropWhile_cons, hc, if_false]
      simp [List.dropWhile_cons, hc]

theorem dropWhile_getLast? (l : List Char) (p : Char → Bool)
    (h : l.dropWhile p ≠ []) : (l.dropWhile p).getLast? = l.getLast? := by
  induction l with
  | nil => rfl
  | cons c rest ih =>
    by_cases hc : p c = true
    · simp only [List.dropWhile_cons, hc, if_true] at h ⊢
      cases rest with
      | nil => simp at h
      | cons b r2 =>
        rw [List.getLast?_cons_cons]
        exact ih h
    · simp [List.dropWhile_cons, hc]

theorem replacePortColon_headq (v pd : List Char) :
    (replacePortColon v pd).head? = v.head? := by
  cases v with
  | nil => rfl
  | cons c rest =>
    simp only [replacePortColon]
    by_cases hcond : c = ':' ∧ headIsDigit rest = true
    · rw [if_pos hcond]
      simp [hcond.1]
    · rw [if_neg hcond]
      simp

theorem headIsDigit_headq (l : List Char) :
    headIsDigit l = (match l.head? with | some d => isDigitCh d | none => false) := by
  cases l <;> rfl

theorem headNotQuote_headq (l : List Char) :
    headNotQuote l = (match l.head? with | some c => !isQuoteCh c | none => true) := by
  cases l <;> rfl

theorem replacePortColon_ne_nil (v pd : List Char) (h : v ≠ []) :
    replacePortColon v pd ≠ [] := by
  cases v with
  | nil => exact absurd rfl h
  | cons c rest =>
    simp only [replacePortColon]
    by_cases hcond : c = ':' ∧ headIsDigit rest = true
    · rw [if_pos hcond]; simp
    · rw [if_neg hcond]; simp

theorem replacePortColon_idem (v pd : List Char) (hpd : pd ≠ [])
    (hpdd : ∀ c ∈ pd, isDigitCh c = true) :
    replacePortColon (replacePortColon v pd) pd = replacePortColon v pd := by
  induction v with
  | nil => rfl
  | cons c rest ih =>
    by_cases hcond : c = ':' ∧ headIsDigit rest = true
    · have hin : replacePortColon (c :: rest) pd =
          ':' :: (pd ++ rest.dropWhile isDigitCh) := by
        simp only [replacePortColon, if_pos hcond]
      rw [hin]
      have hhd : headIsDigit (pd ++ rest.dropWhile isDigitCh) = true := by
        cases pd with
        | nil => exact absurd rfl hpd
        | cons d pdr =>
          simpa [headIsDigit] using hpdd d (List.mem_cons_self _ _)
      have hcond2 : (':' : Char) = ':' ∧
          headIsDigit (pd ++ rest.dropWhile isDigitCh) = true := ⟨rfl, hhd⟩
      simp only [replacePortColon, if_pos hcond2]
      rw [dropWhile_append_sat pd _ isDigitCh hpdd, dropWhile_idem]
      simp [hhd]
    · have hin : replacePortColon (c :: rest) pd = c :: replacePortColon rest pd := by
        simp only [replacePortColon, if_neg hcond]
      rw [hin]
      have hR : headIsDigit (replacePortColon rest pd) = headIsDigit rest := by
        rw [headIsDigit_headq, headIsDigit_headq, replacePortColon_headq]
      have hcondR : ¬ (c = ':' ∧ headIsDigit (replacePortColon rest pd) = true) := by
        intro hcc
        exact hcond ⟨hcc.1, hR ▸ hcc.2⟩
      simp only [replacePortColon, if_neg hcondR]
      rw [ih]

theorem noTrailQuote_cons_cons (c b : Char) (r2 : List Char) :
    noTrailQuote (c :: b :: r2) = noTrailQuote (b :: r2) := by
  unfold noTrailQuote
  rw [List.getLast?_cons_cons]

theorem replacePortColon_noTrail (v pd : List Char) (hpd : pd ≠ [])
    (hpdd : ∀ c ∈ pd, isDigitCh c = true) (hv : noTrailQuote v = true) :
    noTrailQuote (replacePortColon v pd) = true := by
  induction v with
  | nil => rfl
  | cons c rest ih =>
    by_cases hcond : c = ':' ∧ headIsDigit rest = true
    · have hin : replacePortColon (c :: rest) pd =
          ':' :: (pd ++ rest.dropWhile isDigitCh) := by
        simp only [replacePortColon, if_pos hcond]
      rw [hin]
      by_cases hdws : rest.dropWhile isDigitCh = []
      · rw [hdws, List.append_nil]
        unfold noTrailQuote
        rw [show (':' :: pd) = [':'] ++ pd from rfl, List.getLast?_append_of_ne_nil _ hpd]
        cases hl : pd.getLast? with
        | none => rfl
        | some d =>
          have hd : d ∈ pd := List.mem_of_mem_getLast? (by simp [hl])
          show (!isQuoteCh d) = true
          simp [digit_not_quote d (hpdd d hd)]
      · unfold noTrailQuote
        have h1 : (':' :: (pd ++ rest.dropWhile isDigitCh)).getLast? =
            (rest.dropWhile isDigitCh).getLast? := by
          rw [show (':' :: (pd ++ rest.dropWhile isDigitCh)) =
            ([':'] ++ pd) ++ rest.dropWhile isDigitCh by simp,
            List.getLast?_append_of_ne_nil _ hdws]
        rw [h1, dropWhile_getLast? rest isDigitCh hdws]
        have hrest : rest ≠ [] := by
          intro hnil
          rw [hnil] at hdws
          exact hdws rfl
        have hv2 : noTrailQuote rest = true := by
          cases rest with
          | nil => exact absurd rfl hrest
          | cons b r2 => rw [← noTrailQuote_cons_cons c]; exact hv
        unfold noTrailQuote at hv2
        exact hv2
    · have hin : replacePortColon (c :: rest) pd = c :: replacePortColon rest pd := by
        simp only [replacePortColon, if_neg hcond]
      rw [hin]
      cases rest with
      | nil => exact hv
      | cons b r2 =>
        have hRnil : replacePortColon (b :: r2) pd ≠ [] :=
          replacePortColon_ne_nil _ _ (by simp)
        have hv2 : noTrailQuote (b :: r2) = true := by
          rw [← noTrailQuote_cons_cons c]; exact hv
        have hihr := ih hv2
        cases hR : replacePortColon (b :: r2) pd with
        | nil => exact absurd hR hRnil
        | cons x xs =>
          rw [noTrailQuote_cons_cons]
          rw [hR] at hihr
          exact hihr

theorem patchRedisUrl_shape (u : List Char) (redisDb : Nat) :
    ∃ stem, patchRedisUrl u redisDb = stem ++ '/' :: natToChars redisDb := by
  unfold patchRedisUrl
  by_cases hcond : u.reverse.takeWhile isDigitCh ≠ [] ∧
      (u.reverse.drop (u.reverse.takeWhile isDigitCh).length).head? = some '/'
  · rw [if_pos hcond]; exact ⟨_, rfl⟩
  · rw [if_neg hcond]; exact ⟨u, rfl⟩

theorem patchRedisUrl_append_digits (stem : List Char) (redisDb : Nat) :
    patchRedisUrl (stem ++ '/' :: natToChars redisDb) redisDb =
      stem ++ '/' :: natToChars redisDb := by
  have hD := natToChars_ne_nil redisDb
  have hrev : (stem ++ '/' :: natToChars redisDb).reverse =
      (natToChars redisDb).reverse ++ '/' :: stem.reverse := by
    simp [List.reverse_append]
  have htw : ((natToChars redisDb).reverse ++ '/' :: stem.reverse).takeWhile isDigitCh =
      (natToChars redisDb).reverse := by
    refine takeWhile_append_all _ _ _ _ ?_ (by decide)
    intro c hc
    exact natToChars_all_digit redisDb c (List.mem_reverse.mp hc)
  have hdrop : ((natToChars redisDb).reverse ++ '/' :: stem.reverse).drop
      (natToChars redisDb).reverse.length = '/' :: stem.reverse := List.drop_left _ _
  unfold patchRedisUrl
  rw [hrev, htw, hdrop]
  rw [if_pos ⟨by simpa using hD, rfl⟩]
  have hdrop2 : ((natToChars redisDb).reverse ++ '/' :: stem.reverse).drop
      ((natToChars redisDb).reverse.length + 1) = stem.reverse := by
    rw [show (natToChars redisDb).reverse ++ '/' :: stem.reverse =
      ((natToChars redisDb).reverse ++ ['/']) ++ stem.reverse by simp,
      show (natToChars redisDb).reverse.length + 1 =
        ((natToChars redisDb).reverse ++ ['/']).length by simp]
    exact List.drop_left _ _
  rw [hdrop2, List.reverse_reverse]

theorem patchRedisUrl_idem (u : List Char) (redisDb : Nat) :
    patchRedisUrl (patchRedisUrl u redisDb) redisDb = patchRedisUrl u redisDb := by
  obtain ⟨stem, hs⟩ := patchRedisUrl_shape u redisDb
  rw [hs, patchRedisUrl_append_digits]

theorem headNotQuote_append_slash (x : List Char) (t : List Char)
    (hx : headNotQuote x = true) : headNotQuote (x ++ '/' :: t) = true := by
  cases x with
  | nil => simp [headNotQuote]; decide
  | cons c r =>
    simpa [headNotQuote] using hx

theorem patchRedisUrl_headNotQuote (u : List Char) (redisDb : Nat)
    (hu : headNotQuote u = true) : headNotQuote (patchRedisUrl u redisDb) = true := by
  unfold patchRedisUrl
  by_cases hcond : u.reverse.takeWhile isDigitCh ≠ [] ∧
      (u.reverse.drop (u.reverse.takeWhile isDigitCh).length).head? = some '/'
  · rw [if_pos hcond]
    refine headNotQuote_append_slash _ _ ?_
    rw [List.reverse_drop]
    simp only [List.reverse_reverse, List.length_reverse]
    cases u with
    | nil => rfl
    | cons c urest =>
      cases hm : (c :: urest).length - ((c :: urest).reverse.takeWhile isDigitCh).length - 1
        with
      | zero =>
        have : (c :: urest).length -
            (((c :: urest).reverse.takeWhile isDigitCh).length + 1) = 0 := by omega
        rw [this]
        rfl
      | succ m2 =>
        have : (c :: urest).length -
            (((c :: urest).reverse.takeWhile isDigitCh).length + 1) = m2 + 1 := by omega
        rw [this]
        simpa [headNotQuote, List.take] using hu
  · rw [if_neg hcond]
    exact headNotQuote_append_slash _ _ hu

theorem applyPatch_port_ok (value : List Char) (patch : PatchConfig) (context : PatchContext)
    (w : List Char) (hty : patch.type = PatchType.port)
    (h : applyPatch value patch context = .ok w) :
    ∃ s prt, patch.service = some s ∧ s ≠ [] ∧ jsGet context.ports s = some prt ∧
      w = natToChars prt := by
  simp only [applyPatch, hty] at h
  cases hs : patch.service with
  | none => rw [hs] at h; exact absurd h (by simp)
  | some s =>
    rw [hs] at h
    have h2 : (if s = [] then (Except.error portErrorMsg : Except (List Char) (List Char))
        else match jsGet context.ports s with
          | none => .error portErrorMsg
          | some prt => .ok (natToChars prt)) = .ok w := h
    by_cases hsnil : s = []
    · rw [if_pos hsnil] at h2; exact absurd h2 (by simp)
    · rw [if_neg hsnil] at h2
      cases hg : jsGet context.ports s with
      | none => rw [hg] at h2; exact absurd h2 (by simp)
      | some prt =>
        rw [hg] at h2
        exact ⟨s, prt, rfl, hsnil, hg, by simpa using h2.symm⟩

theorem applyPatch_url_ok (value : List Char) (patch : PatchConfig) (context : PatchContext)
    (w : List Char) (hty : patch.type = PatchType.url)
    (h : applyPatch value patch context = .ok w) :
    ∃ s prt, patch.service = some s ∧ s ≠ [] ∧ jsGet context.ports s = some prt ∧
      w = replacePortColon value (natToChars prt) := by
  simp only [applyPatch, hty] at h
  cases hs : patch.service with
  | none => rw [hs] at h; exact absurd h (by simp)
  | some s =>
    rw [hs] at h
    have h2 : (if s = [] then (Except.error urlErrorMsg : Except (List Char) (List Char))
        else match jsGet context.ports s with
          | none => .error urlErrorMsg
          | some prt => .ok (replacePortColon value (natToChars prt))) = .ok w := h
    by_cases hsnil : s = []
    · rw [if_pos hsnil] at h2; exact absurd h2 (by simp)
    · rw [if_neg hsnil] at h2
      cases hg : jsGet context.ports s with
      | none => rw [hg] at h2; exact absurd h2 (by simp)
      | some prt =>
        rw [hg] at h2
        exact ⟨s, prt, rfl, hsnil, hg, by simpa using h2.symm⟩

theorem applyPatch_port_eval (value : List Char) (patch : PatchConfig)
    (context : PatchContext) (s : List Char) (prt : Nat) (hty : patch.type = PatchType.port)
    (hs : patch.service = some s) (hsnil : s ≠ []) (hg : jsGet context.ports s = some prt) :
    applyPatch value patch context = .ok (natToChars prt) := by
  simp only [applyPatch, hty, hs]
  show (if s = [] then (Except.error portErrorMsg : Except (List Char) (List Char))
      else match jsGet context.ports s with
        | none => .error portErrorMsg
        | some prt => .ok (natToChars prt)) = _
  rw [if_neg hsnil, hg]

theorem applyPatch_url_eval (value : List Char) (patch : PatchConfig)
    (context : PatchContext) (s : List Char) (prt : Nat) (hty : patch.type = PatchType.url)
    (hs : patch.service = some s) (hsnil : s ≠ []) (hg : jsGet context.ports s = some prt) :
    applyPatch value patch context = .ok (replacePortColon value (natToChars prt)) := by
  simp only [applyPatch, hty, hs]
  show (if s = [] then (Except.error urlErrorMsg : Except (List Char) (List Char))
      else match jsGet context.ports s with
        | none => .error urlErrorMsg
        | some prt => .ok (replacePortColon value (natToChars prt))) = _
  rw [if_neg hsnil, hg]

/-- A rule of type `port`, `url` or `redis` applied to its own output is a
fixed point: these transforms are idempotent at the value level. -/
theorem applyPatch_idem (value : List Char) (patch : PatchConfig) (context : PatchContext)
    (w : List Char)
    (hty : patch.type = PatchType.port ∨ patch.type = PatchType.url ∨
      patch.type = PatchType.redis)
    (h : applyPatch value patch context = .ok w) :
    applyPatch w patch context = .ok w := by
  rcases hty with hty | hty | hty
  · obtain ⟨s, prt, hs, hsnil, hg, rfl⟩ := applyPatch_port_ok value patch context w hty h
    exact applyPatch_port_eval _ patch context s prt hty hs hsnil hg
  · obtain ⟨s, prt, hs, hsnil, hg, rfl⟩ := applyPatch_url_ok value patch context w hty h
    rw [applyPatch_url_eval _ patch context s prt hty hs hsnil hg,
      replacePortColon_idem value (natToChars prt) (natToChars_ne_nil prt)
        (natToChars_all_digit prt)]
  · simp only [applyPatch, hty] at h ⊢
    obtain rfl : patchRedisUrl value context.redisDb = w := by simpa using h
    rw [patchRedisUrl_idem]

theorem applyPatch_headNotQuote (value : List Char) (patch : PatchConfig)
    (context : PatchContext) (w : List Char)
    (hty : patch.type = PatchType.port ∨ patch.type = PatchType.url ∨
      patch.type = PatchType.redis)
    (hu : headNotQuote value = true) (h : applyPatch value patch context = .ok w) :
    headNotQuote w = true := by
  rcases hty with hty | hty | hty
  · obtain ⟨s, prt, _, _, _, rfl⟩ := applyPatch_port_ok value patch context w hty h
    exact headNotQuote_digits prt
  · obtain ⟨s, prt, _, _, _, rfl⟩ := applyPatch_url_ok value patch context w hty h
    rw [headNotQuote_headq, replacePortColon_headq, ← headNotQuote_headq]
    exact hu
  · simp only [applyPatch, hty] at h
    obtain rfl : patchRedisUrl value context.redisDb = w := by simpa using h
    exact patchRedisUrl_headNotQuote value context.redisDb hu

theorem applyPatch_noTrailQuote (value : List Char) (patch : PatchConfig)
    (context : PatchContext) (w : List Char)
    (hty : patch.type = PatchType.port ∨ patch.type = PatchType.url ∨
      patch.type = PatchType.redis)
    (hu : noTrailQuote value = true) (h : applyPatch value patch context = .ok w) :
    noTrailQuote w = true := by
  rcases hty with hty | hty | hty
  · obtain ⟨s, prt, _, _, _, rfl⟩ := applyPatch_port_ok value patch context w hty h
    exact noTrailQuote_digits prt
  · obtain ⟨s, prt, _, _, _, rfl⟩ := applyPatch_url_ok value patch context w hty h
    exact replacePortColon_noTrail value (natToChars prt) (natToChars_ne_nil prt)
      (natToChars_all_digit prt) hu
  · simp only [applyPatch, hty] at h
    obtain rfl : patchRedisUrl value context.redisDb = w := by simpa using h
    obtain ⟨stem, hs⟩ := patchRedisUrl_shape value context.redisDb
    rw [hs]
    exact noTrailQuote_append_digits stem context.redisDb

theorem lookupPatch_mem (patches : List PatchConfig) (n : List Char) (patch : PatchConfig)
    (h : lookupPatch patches n = some patch) : patch ∈ patches ∧ patch.var = n := by
  unfold lookupPatch at h
  refine ⟨List.mem_reverse.mp (List.mem_of_find?_eq_some h), ?_⟩
  have := List.find?_some h
  simpa using this

theorem lookupPatch_self (patches : List PatchConfig) (patch : PatchConfig)
    (hnd : (patches.map PatchConfig.var).Nodup) (hp : patch ∈ patches) :
    lookupPatch patches patch.var = some patch := by
  cases hf : lookupPatch patches patch.var with
  | none =>
    exfalso
    unfold lookupPatch at hf
    rw [List.find?_eq_none] at hf
    exact absurd (beq_self_eq_true patch.var) (hf patch (List.mem_reverse.mpr hp))
  | some q =>
    obtain ⟨hqmem, hqvar⟩ := lookupPatch_mem patches patch.var q hf
    obtain rfl : q = patch :=
      List.inj_on_of_nodup_map hnd hqmem hp (by rw [hqvar])
    rfl

/-- The central stability lemma: under the idempotence side conditions, a line
produced by `processLine` is a fixed point of `processLine`, and it
contributes the same entry to the `found` set as its source line. -/
theorem processLine_stable (patches : List PatchConfig) (context : PatchContext)
    (l l2 : List Char)
    (htypes : ∀ p ∈ patches, p.type = PatchType.port ∨ p.type = PatchType.url ∨
      p.type = PatchType.redis)
    (hsafe : lineSafe patches l = true)
    (h : processLine patches context l = .ok l2) :
    processLine patches context l2 = .ok l2 ∧
      foundEntry patches l2 = foundEntry patches l := by
  rcases processLine_ok_cases patches context l l2 h with ⟨hu, rfl⟩ | hcase
  · exact ⟨processLine_untouched patches context l2 hu, rfl⟩
  · obtain ⟨n, raw, patch, w, hm, hlk, hap, rfl⟩ := hcase
    have hEnv : isEnvName n = true := (matchAssign_some l n raw hm).2
    have hpmem : patch ∈ patches := (lookupPatch_mem patches n patch hlk).1
    have hty3 := htypes patch hpmem
    rcases quoteOf_cases raw with hq | hq | hq
    · -- unquoted value
      have hw_head : headNotQuote w = true :=
        applyPatch_headNotQuote _ patch context w hty3 (headNotQuote_stripQuotes raw hq) hap
      have hu_trail : noTrailQuote (stripQuotes raw) = true := by
        unfold lineSafe at hsafe
        rw [hm] at hsafe
        have hsafe2 : (if (lookupPatch patches n).isSome && (quoteOf raw).isEmpty then
            noTrailQuote (stripQuotes raw) else true) = true := hsafe
        rw [if_pos (by simp [hlk, hq])] at hsafe2
        exact hsafe2
      have hw_trail : noTrailQuote w = true :=
        applyPatch_noTrailQuote _ patch context w hty3 hu_trail hap
      rw [hq]
      have hline : n ++ '=' :: ([] ++ w ++ []) = n ++ '=' :: w := by simp
      rw [hline]
      have hma : matchAssign (n ++ '=' :: w) = some (n, w) := matchAssign_construct n w hEnv
      constructor
      · have hq2 : quoteOf w = [] := quoteOf_of_headNotQuote w hw_head
        have hsq : stripQuotes w = w := stripQuotes_id w hw_head hw_trail
        have := processLine_matched patches context (n ++ '=' :: w) n w patch w hma hlk
          (by rw [hsq]; exact applyPatch_idem _ patch context w hty3 hap)
        rw [hq2] at this
        simpa using this
      · unfold foundEntry
        rw [hma, hm]
    · -- double-quoted value
      rw [hq]
      have hline : n ++ '=' :: ([dquote] ++ w ++ [dquote]) =
          n ++ '=' :: (dquote :: (w ++ [dquote])) := by simp
      rw [hline]
      have hma : matchAssign (n ++ '=' :: (dquote :: (w ++ [dquote]))) =
          some (n, dquote :: (w ++ [dquote])) := matchAssign_construct n _ hEnv
      constructor
      · have hsq : stripQuotes (dquote :: (w ++ [dquote])) = w :=
          stripQuotes_wrapped dquote w (by decide)
        have hq2 : quoteOf (dquote :: (w ++ [dquote])) = [dquote] :=
          quoteOf_wrapped dquote w (Or.inl rfl)
        have := processLine_matched patches context _ n (dquote :: (w ++ [dquote])) patch w
          hma hlk (by rw [hsq]; exact applyPatch_idem _ patch context w hty3 hap)
        rw [hq2] at this
        rw [this]
        simp
      · unfold foundEntry
        rw [hma, hm]
    · -- single-quoted value
      rw [hq]
      have hline : n ++ '=' :: ([squote] ++ w ++ [squote]) =
          n ++ '=' :: (squote :: (w ++ [squote])) := by simp
      rw [hline]
      have hma : matchAssign (n ++ '=' :: (squote :: (w ++ [squote]))) =
          some (n, squote :: (w ++ [squote])) := matchAssign_construct n _ hEnv
      constructor
      · have hsq : stripQuotes (squote :: (w ++ [squote])) = w :=
          stripQuotes_wrapped squote w (by decide)
        have hq2 : quoteOf (squote :: (w ++ [squote])) = [squote] :=
          quoteOf_wrapped squote w (Or.inr rfl)
        have := processLine_matched patches context _ n (squote :: (w ++ [squote])) patch w
          hma hlk (by rw [hsq]; exact applyPatch_idem _ patch context w hty3 hap)
        rw [hq2] at this
        rw [this]
        simp
      · unfold foundEntry
        rw [hma, hm]

theorem processLines_stable_all (patches : List PatchConfig) (context : PatchContext)
    (L L2 : List (List Char))
    (htypes : ∀ p ∈ patches, p.type = PatchType.port ∨ p.type = PatchType.url ∨
      p.type = PatchType.redis)
    (hsafeL : ∀ l ∈ L, lineSafe patches l = true)
    (h : processLines patches context L = .ok L2) :
    (∀ l2 ∈ L2, processLine patches context l2 = .ok l2) ∧
      foundVars patches L2 = foundVars patches L := by
  induction L generalizing L2 with
  | nil =>
    simp only [processLines] at h
    obtain rfl : ([] : List (List Char)) = L2 := by simpa using h
    exact ⟨by simp, rfl⟩
  | cons l rest ih =>
    simp only [processLines] at h
    cases hp : processLine patches context l with
    | error e => rw [hp] at h; exact absurd h (by simp)
    | ok l2 =>
      rw [hp] at h
      cases hr : processLines patches context rest with
      | error e => rw [hr] at h; exact absurd h (by simp)
      | ok rest2 =>
        rw [hr] at h
        obtain rfl : l2 :: rest2 = L2 := by simpa using h
        obtain ⟨hstab, hfe⟩ := processLine_stable patches context l l2 htypes
          (hsafeL l (List.mem_cons_self _ _)) hp
        obtain ⟨ih1, ih2⟩ := ih rest2 (fun x hx => hsafeL x (List.mem_cons_of_mem _ hx)) hr
        refine ⟨?_, ?_⟩
        · intro x hx
          rcases List.mem_cons.mp hx with rfl | hx2
          · exact hstab
          · exact ih1 x hx2
        · unfold foundVars
          simp only [List.filterMap_cons]
          unfold foundVars at ih2
          rw [hfe, ih2]

/-- A line appended by the post-pass is itself a fixed point of `processLine`
and registers its variable in the `found` set of a later pass. -/
theorem appended_line_stable (patches : List PatchConfig) (context : PatchContext)
    (patch : PatchConfig) (s : List Char) (prt : Nat)
    (hvars : ∀ q ∈ patches, isEnvName q.var = true)
    (hnd : (patches.map PatchConfig.var).Nodup)
    (hp : patch ∈ patches) (hty : patch.type = PatchType.port)
    (hs : patch.service = some s) (hsnil : s ≠ []) (hg : jsGet context.ports s = some prt) :
    processLine patches context (patch.var ++ '=' :: natToChars prt) =
        .ok (patch.var ++ '=' :: natToChars prt) ∧
      foundEntry patches (patch.var ++ '=' :: natToChars prt) = some patch.var := by
  have hEnv := hvars patch hp
  have hma : matchAssign (patch.var ++ '=' :: natToChars prt) =
      some (patch.var, natToChars prt) := matchAssign_construct _ _ hEnv
  have hlk : lookupPatch patches patch.var = some patch := lookupPatch_self patches patch hnd hp
  constructor
  · have hsq : stripQuotes (natToChars prt) = natToChars prt :=
      stripQuotes_id _ (headNotQuote_digits prt) (noTrailQuote_digits prt)
    have hap : applyPatch (stripQuotes (natToChars prt)) patch context =
        .ok (natToChars prt) := by
      rw [hsq]
      exact applyPatch_port_eval _ patch context s prt hty hs hsnil hg
    have := processLine_matched patches context _ patch.var (natToChars prt) patch
      (natToChars prt) hma hlk hap
    rw [quoteOf_of_headNotQuote _ (headNotQuote_digits prt)] at this
    simpa using this
  · unfold foundEntry
    rw [hma]
    simp [hlk]

theorem contains_iff (L : List (List Char)) (k : List Char) :
    L.contains k = true ↔ k ∈ L := by
  constructor
  · intro h
    obtain ⟨a, ha, hbeq⟩ := List.contains_iff_exists_mem_beq.mp h
    obtain rfl : k = a := by simpa using hbeq
    exact ha
  · intro h
    exact List.contains_iff_exists_mem_beq.mpr ⟨k, h, by simp⟩

theorem applyPatch_ok_chars_nodb (value : List Char) (patch : PatchConfig)
    (context : PatchContext) (w : List Char) (hty : patch.type ≠ PatchType.database)
    (h : applyPatch value patch context = .ok w) :
    ∀ c ∈ w, c ∈ value ∨ isDigitCh c = true ∨ c = '/' ∨ c = ':' := by
  intro c hc
  cases hty2 : patch.type with
  | database => exact absurd hty2 hty
  | redis =>
    simp only [applyPatch, hty2] at h
    obtain rfl : patchRedisUrl value context.redisDb = w := by simpa using h
    rcases mem_patchRedisUrl value context.redisDb c hc with h2 | h2 | h2
    · exact Or.inl h2
    · exact Or.inr (Or.inr (Or.inl h2))
    · exact Or.inr (Or.inl (natToChars_all_digit _ c h2))
  | port =>
    obtain ⟨s, prt, _, _, _, rfl⟩ := applyPatch_port_ok value patch context w hty2 h
    exact Or.inr (Or.inl (natToChars_all_digit _ c hc))
  | url =>
    obtain ⟨s, prt, _, _, _, rfl⟩ := applyPatch_url_ok value patch context w hty2 h
    rcases mem_replacePortColon value (natToChars prt) c hc with h2 | h2 | h2
    · exact Or.inl h2
    · exact Or.inr (Or.inr (Or.inr h2))
    · exact Or.inr (Or.inl (natToChars_all_digit _ c h2))

theorem processLine_no_newline_nodb (patches : List PatchConfig) (context : PatchContext)
    (l l2 : List Char) (htypes_ne : ∀ p ∈ patches, p.type ≠ PatchType.database)
    (hl : '\n' ∉ l) (h : processLine patches context l = .ok l2) : '\n' ∉ l2 := by
  rcases processLine_ok_cases patches context l l2 h with ⟨_, rfl⟩ | hcase
  · exact hl
  · obtain ⟨n, raw, patch, w, hm, hlk, hap, rfl⟩ := hcase
    obtain ⟨hsplitl, _⟩ := matchAssign_some l n raw hm
    have hpne := htypes_ne patch (lookupPatch_mem patches n patch hlk).1
    intro hmem
    have hq : '\n' ∉ quoteOf raw := by
      rcases quoteOf_cases raw with hq | hq | hq <;> rw [hq] <;> simp <;> decide
    rcases List.mem_append.mp hmem with h2 | h2
    · exact hl (hsplitl ▸ List.mem_append_left _ h2)
    · rcases List.mem_cons.mp h2 with heq | h3
      · exact absurd heq (by decide)
      · rcases List.mem_append.mp h3 with h4 | h4
        · rcases List.mem_append.mp h4 with h5 | h5
          · exact hq h5
          · rcases applyPatch_ok_chars_nodb _ _ _ _ hpne hap '\n' h5 with h6 | h6 | h6 | h6
            · exact hl (hsplitl ▸ List.mem_append_right _
                (List.mem_cons_of_mem _ (mem_stripQuotes raw '\n' h6)))
            · exact absurd h6 (by decide)
            · exact absurd h6 (by decide)
            · exact absurd h6 (by decide)
        · exact hq h4

theorem processLines_no_newline_nodb (patches : List PatchConfig) (context : PatchContext)
    (L L2 : List (List Char)) (htypes_ne : ∀ p ∈ patches, p.type ≠ PatchType.database)
    (hL : ∀ l ∈ L, '\n' ∉ l) (h : processLines patches context L = .ok L2) :
    ∀ s ∈ L2, '\n' ∉ s := by
  induction L generalizing L2 with
  | nil =>
    simp only [processLines] at h
    obtain rfl : ([] : List (List Char)) = L2 := by simpa using h
    simp
  | cons l rest ih =>
    simp only [processLines] at h
    cases hp : processLine patches context l with
    | error e => rw [hp] at h; exact absurd h (by simp)
    | ok l2 =>
      rw [hp] at h
      cases hr : processLines patches context rest with
      | error e => rw [hr] at h; exact absurd h (by simp)
      | ok rest2 =>
        rw [hr] at h
        obtain rfl : l2 :: rest2 = L2 := by simpa using h
        intro s hs
        rcases List.mem_cons.mp hs with rfl | hs2
        · exact processLine_no_newline_nodb patches context l s htypes_ne
            (hL l (List.mem_cons_self _ _)) hp
        · exact ih rest2 (fun x hx => hL x (List.mem_cons_of_mem _ hx)) hr s hs2

theorem envName_no_newline (v : List Char) (h : isEnvName v = true) : '\n' ∉ v :=
  fun hm => absurd (isEnvName_all v h '\n' hm) (by decide)

theorem appendedLines_eq_nil (patches : List PatchConfig) (found : List (List Char))
    (context : PatchContext)
    (h : ∀ p ∈ patches, p.type = PatchType.port → ∀ s, p.service = some s → s ≠ [] →
      ∀ prt, jsGet context.ports s = some prt → found.contains p.var = true) :
    appendedLines patches found context = [] := by
  unfold appendedLines
  rw [List.filterMap_eq_nil_iff]
  intro p hp
  by_cases hc : found.contains p.var = true
  · rw [if_pos hc]
  · rw [if_neg hc]
    obtain ⟨pvar, pty, psvc⟩ := p
    cases pty with
    | database => rfl
    | redis => rfl
    | url => rfl
    | port =>
      cases psvc with
      | none => rfl
      | some s =>
        show (if s = [] then none
          else match jsGet context.ports s with
            | some prt => some (pvar ++ '=' :: natToChars prt)
            | none => none) = (none : Option (List Char))
        by_cases hs0 : s = []
        · rw [if_pos hs0]
        · rw [if_neg hs0]
          cases hg : jsGet context.ports s with
          | none => rfl
          | some prt =>
            exact absurd (h _ hp rfl s rfl hs0 prt hg) hc

/-- C3 (amended): `patchEnvContent` is idempotent for rule sets containing
only `port`, `url` and `redis` rules, provided every rule's variable is a
well-formed env identifier, no two rules share a variable name, and on every
rule-matched assignment line an unquoted raw value does not still end in a
quote character after the single trailing-quote strip.  In particular the
`PORT=3001` example of the spec satisfies all side conditions. -/
theorem patchEnvContent_idem (content o : List Char) (patches : List PatchConfig)
    (context : PatchContext)
    (htypes : ∀ p ∈ patches, p.type = PatchType.port ∨ p.type = PatchType.url ∨
      p.type = PatchType.redis)
    (hvars : ∀ p ∈ patches, isEnvName p.var = true)
    (hnd : (patches.map PatchConfig.var).Nodup)
    (hsafe : ∀ l ∈ splitNl content, lineSafe patches l = true)
    (h : patchEnvContent content patches context = .ok o) :
    patchEnvContent o patches context = .ok o := by
  obtain ⟨lines2, hpl, rfl⟩ := patchEnvContent_ok content patches context _ h
  obtain ⟨hstab, hfv⟩ := processLines_stable_all patches context _ _ htypes hsafe hpl
  obtain ⟨hlen, _⟩ := processLines_pointwise patches context _ _ hpl
  have htypes_ne : ∀ p ∈ patches, p.type ≠ PatchType.database := by
    intro p hp hdb
    rcases htypes p hp with h2 | h2 | h2 <;> rw [hdb] at h2 <;> exact absurd h2 (by decide)
  have hnl2 : ∀ x ∈ lines2, '\n' ∉ x :=
    processLines_no_newline_nodb patches context _ _ htypes_ne
      (splitNl_no_newline content) hpl
  have hnlapp : ∀ x ∈ appendedLines patches (foundVars patches (splitNl content)) context,
      '\n' ∉ x := by
    intro x hx
    obtain ⟨q, hq, _, _, s2, prt2, _, _, _, rfl⟩ := mem_appendedLines _ _ _ _ hx
    intro hmem
    rcases List.mem_append.mp hmem with h2 | h2
    · exact envName_no_newline q.var (hvars q hq) h2
    · rcases List.mem_cons.mp h2 with heq | h3
      · exact absurd heq (by decide)
      · exact absurd (natToChars_all_digit _ _ h3) (by decide)
  have hne : lines2 ++ appendedLines patches (foundVars patches (splitNl content)) context ≠
      [] := by
    intro hnil
    obtain ⟨h1, _⟩ := List.append_eq_nil.mp hnil
    have hlen0 : (splitNl content).length = 0 := by rw [← hlen, h1]; rfl
    exact splitNl_ne_nil content (List.length_eq_zero.mp hlen0)
  have hsplit : splitNl (joinNl (lines2 ++
      appendedLines patches (foundVars patches (splitNl content)) context)) =
      lines2 ++ appendedLines patches (foundVars patches (splitNl content)) context := by
    refine splitNl_joinNl _ ?_ hne
    intro x hx
    rcases List.mem_append.mp hx with h2 | h2
    · exact hnl2 x h2
    · exact hnlapp x h2
  have hproc2 : processLines patches context (lines2 ++
      appendedLines patches (foundVars patches (splitNl content)) context) =
      .ok (lines2 ++ appendedLines patches (foundVars patches (splitNl content)) context) := by
    apply processLines_of_stable
    intro x hx
    rcases List.mem_append.mp hx with h2 | h2
    · exact hstab x h2
    · obtain ⟨q, hq, _, hqty, s2, prt2, hqs, hqs0, hg, rfl⟩ := mem_appendedLines _ _ _ _ h2
      exact (appended_line_stable patches context q s2 prt2 hvars hnd hq hqty hqs hqs0 hg).1
  have hfv2 : foundVars patches (lines2 ++
      appendedLines patches (foundVars patches (splitNl content)) context) =
      foundVars patches (splitNl content) ++
        foundVars patches
          (appendedLines patches (foundVars patches (splitNl content)) context) := by
    unfold foundVars
    rw [List.filterMap_append]
    unfold foundVars at hfv
    rw [hfv]
  have happ2 : appendedLines patches (foundVars patches (lines2 ++
      appendedLines patches (foundVars patches (splitNl content)) context)) context = [] := by
    apply appendedLines_eq_nil
    intro p hp hty s hs hs0 prt hg
    refine (contains_iff _ _).mpr ?_
    rw [hfv2]
    by_cases hc1mem : p.var ∈ foundVars patches (splitNl content)
    · exact List.mem_append_left _ hc1mem
    · refine List.mem_append_right _ ?_
      have hc1 : (foundVars patches (splitNl content)).contains p.var = false := by
        by_contra hcc
        exact hc1mem ((contains_iff _ _).mp (by simpa using hcc))
      have hline : (p.var ++ '=' :: natToChars prt) ∈
          appendedLines patches (foundVars patches (splitNl content)) context := by
        refine List.mem_filterMap.mpr ⟨p, hp, ?_⟩
        rw [if_neg (fun hcc => hc1mem ((contains_iff _ _).mp hcc))]
        rw [hty, hs]
        show (if s = [] then none
          else match jsGet context.ports s with
            | some prt2 => some (p.var ++ '=' :: natToChars prt2)
            | none => none) = some (p.var ++ '=' :: natToChars prt)
        rw [if_neg hs0, hg]
      unfold foundVars
      refine List.mem_filterMap.mpr ⟨p.var ++ '=' :: natToChars prt, hline, ?_⟩
      exact (appended_line_stable patches context p s prt hvars hnd hp hty hs hs0 hg).2
  show patchEnvContent _ patches context = _
  unfold patchEnvContent
  rw [hsplit, hproc2]
  show Except.ok (joinNl ((lines2 ++
      appendedLines patches (foundVars patches (splitNl content)) context) ++
      appendedLines patches (foundVars patches (lines2 ++
        appendedLines patches (foundVars patches (splitNl content)) context)) context)) = _
  rw [happ2, List.append_nil]

/-- C3 counterexample: with the single `url` rule for `URL` and port 5 for
service `s`, the line `URL=x:1''` (unquoted value ending in two single
quotes) patches to `URL=x:5'` — the regex strips one trailing quote — and a
second pass strips the remaining quote, yielding `URL=x:5` ≠ `URL=x:5'`.  So
`patchEnvContent` is not idempotent as claimed. -/
theorem patchEnvContent_idem_cex :
    patchEnvContent ("URL=x:1".toList ++ [squote, squote])
        [⟨"URL".toList, PatchType.url, some "s".toList⟩]
        ⟨"db".toList, 0, [("s".toList, 5)]⟩ =
      .ok ("URL=x:5".toList ++ [squote]) ∧
    patchEnvContent ("URL=x:5".toList ++ [squote])
        [⟨"URL".toList, PatchType.url, some "s".toList⟩]
        ⟨"db".toList, 0, [("s".toList, 5)]⟩ =
      .ok "URL=x:5".toList ∧
    "URL=x:5".toList ≠ "URL=x:5".toList ++ [squote] :=
  ⟨by rfl, by rfl, by decide⟩

/-- C3 witness: the spec's `PORT` example satisfies all side conditions of the
amended idempotence theorem, and reapplying reproduces `PORT=3301`. -/
theorem patchEnvContent_idem_witness :
    patchEnvContent "PORT=3001".toList
        [⟨"PORT".toList, PatchType.port, some "server".toList⟩]
        ⟨"db".toList, 3, [("server".toList, 3301)]⟩ = .ok "PORT=3301".toList ∧
    patchEnvContent "PORT=3301".toList
        [⟨"PORT".toList, PatchType.port, some "server".toList⟩]
        ⟨"db".toList, 3, [("server".toList, 3301)]⟩ = .ok "PORT=3301".toList :=
  ⟨by rfl,
    patchEnvContent_idem "PORT=3001".toList "PORT=3301".toList
      [⟨"PORT".toList, PatchType.port, some "server".toList⟩]
      ⟨"db".toList, 3, [("server".toList, 3301)]⟩
      (by decide) (by decide) (by decide) (by decide) (by rfl)⟩

end Wt
